import Mathlib

/-!
# mini_serv: a line-broadcast relay

Shallow embedding of `mini_serv.c`.

Modelling conventions.

* A byte is a `Fin 256`.  A C string (`char *` pointing at NUL-terminated
  memory) is modelled by the list of its bytes before the terminating NUL; a
  `char *` that may be `NULL` is an `Option` of such a list.
* The only raw memory that is read as a C string is `g_recv_buffer`; the
  string that starts there is obtained with `c_str`, which stops at the first
  zero byte, exactly as `strlen`/`strcat` do.
* Handles (file descriptors) are natural numbers: `socket` and `accept`
  results are used only after the `< 0` / `>= 0` tests of the source.
  The two tables indexed by handle are maps on handles; the source gives them
  65536 entries, and the model is about handles below that.
* An `fd_set` holds `FD_SETSIZE` handles; the field `active_fds` is a map of
  which only the handles below `FD_SETSIZE` are read and written.  The source
  passes every handle to `FD_SET`, `FD_CLR` and `FD_ISSET` unchecked; for a
  handle at or above `FD_SETSIZE` these reach the fields that follow
  `active_fds` in `t_state` (`next_client_id`, then `fd_to_id`), as they do in
  the running program on x86-64 Linux with glibc (bit `fd` counted from the
  start of the set, 32-bit little-endian `int`s).  `FD_SET`, `FD_CLR` and
  `FD_ISSET` model this.
* `int` values (identities, return codes) are integers in the range of a
  32-bit `int`; `next_client_id++` wraps around at `INT_MAX` (`to_int`).
* `malloc`/`calloc` succeed.  When they fail the source calls `fatal`, which
  ends the process, so there is no later behaviour to describe.
* A call of `send` is recorded as an entry `(handle, bytes)` of an output
  log; its result is ignored by the source.  The log of a function is the
  sequence of calls it makes if none of them ends the process.  `send` is
  called with flags 0 and `SIGPIPE` keeps its default action, so a call on a
  connection whose peer has closed can end the process: `server_loop_turn`
  gives the outcome of a turn when the environment raises `SIGPIPE`.
* One turn of the loop of `server_loop` for a ready handle is
  `server_loop_body`; a whole pass of the loop `for (fd = 0; fd <= highest_fd;
  fd++)` is `server_loop_scan`; `server_loop_turns` runs the turns of a list
  of reports, whatever they are.  `Reachable` closes the state set up by `main`
  under turns whose reports the environment can give while every handle stays
  below `FD_SETSIZE` and the counter below `INT_MAX` (`EnvOk`); every pass of
  the loop under these conditions stays inside it
  (`server_loop_pass_reachable`).
-/

namespace MiniServ

/-- One byte of a stream. -/
abbrev Byte := Fin 256

/-- The line delimiter, the character constant written '\n' in the source. -/
def NL : Byte := 10

/-- A C string: the bytes before its terminating NUL. -/
abbrev CStr := List Byte

/-- The bytes of a string literal of the source. -/
def bytes (s : String) : List Byte := s.toList.map (fun c => Fin.ofNat c.toNat)

/-- The C string that starts at the beginning of a memory area: everything
before the first zero byte (what `strlen` measures and `strcat` copies). -/
def c_str (mem : List Byte) : CStr := mem.takeWhile (fun c => c ≠ 0)

/-- The scan of `extract_message` (`while ((*buf)[i]) ... i++`): the index,
counted from `i`, of the first '\n' of the string. -/
def extract_scan : CStr → Nat → Option Nat
  | [], _ => none
  | c :: rest, i => if c = NL then some i else extract_scan rest (i + 1)

/-- Result of `extract_message`: the return value and the two out-parameters. -/
structure Extracted where
  ret : Int
  buf : Option CStr
  msg : Option CStr
  deriving DecidableEq

/-- Model of `extract_message(char **buf, char **msg)`. -/
def extract_message (buf : Option CStr) : Extracted :=
  match buf with
  | none => { ret := 0, buf := none, msg := none }
  | some b =>
    match extract_scan b 0 with
    | some i => { ret := 1, buf := some (b.drop (i + 1)), msg := some (b.take (i + 1)) }
    | none => { ret := 0, buf := some b, msg := none }

/-- Model of `str_join(char *buf, char *add)`: a fresh string holding `buf`
(nothing when `buf` is `NULL`) followed by `add`. -/
def str_join (buf : Option CStr) (add : CStr) : Option CStr :=
  match buf with
  | none => some ([] ++ add)
  | some b => some (b ++ add)

/-- The global `t_state g_state`. -/
structure t_state where
  listen_fd : Nat
  highest_fd : Nat
  active_fds : Nat → Bool
  next_client_id : Int
  fd_to_id : Nat → Int
  fd_to_buffer : Nat → Option CStr

/-- One call of `send(fd, message, strlen(message), 0)`. -/
abbrev Sent := Nat × List Byte

/-- Assignment `table[k] = v` on a table indexed by handle. -/
def set_at {α : Type} (table : Nat → α) (k : Nat) (v : α) : Nat → α :=
  fun j => if j = k then v else table j

/-- Output of the conversion `%d` of `sprintf`. -/
def fmt_d (i : Int) : List Byte :=
  match i with
  | Int.ofNat n => bytes (Nat.repr n)
  | Int.negSucc n => bytes "-" ++ bytes (Nat.repr (n + 1))

/-- Number of handles an `fd_set` holds (`FD_SETSIZE` of `<sys/select.h>`). -/
def FD_SETSIZE : Nat := 1024

/-- Largest value of an `int` (`INT_MAX` of `<limits.h>`). -/
def INT_MAX : Int := 2147483647

/-- The `int` that holds an integer result: wrap-around to 32 bits in two's
complement. -/
def to_int (x : Int) : Int := (x + 2147483648) % 4294967296 - 2147483648

/-- Bit `b` (0 the least significant) of an `int` in two's complement. -/
def int_bit (x : Int) (b : Nat) : Bool := decide ((x / 2 ^ b) % 2 = 1)

/-- An `int` with bit `b` set. -/
def int_set_bit (x : Int) (b : Nat) : Int :=
  if int_bit x b = true then x else to_int (x + 2 ^ b)

/-- An `int` with bit `b` cleared. -/
def int_clear_bit (x : Int) (b : Nat) : Int :=
  if int_bit x b = true then to_int (x - 2 ^ b) else x

/-- Model of `FD_ISSET(fd, &g_state.active_fds)`.  The macro reads bit `fd`
counted from the start of the set: below `FD_SETSIZE` a bit of the set, for the
next 32 handles a bit of `next_client_id`, the field that follows the set in
`t_state`, and beyond a bit of an entry of `fd_to_id`. -/
def FD_ISSET (fd : Nat) (s : t_state) : Bool :=
  if fd < FD_SETSIZE then s.active_fds fd
  else if fd < FD_SETSIZE + 32 then int_bit s.next_client_id (fd - FD_SETSIZE)
  else int_bit (s.fd_to_id ((fd - FD_SETSIZE - 32) / 32)) ((fd - FD_SETSIZE - 32) % 32)

/-- Model of `FD_SET(fd, &g_state.active_fds)`: sets the bit `FD_ISSET`
reads. -/
def FD_SET (fd : Nat) (s : t_state) : t_state :=
  if fd < FD_SETSIZE then { s with active_fds := set_at s.active_fds fd true }
  else if fd < FD_SETSIZE + 32 then
    { s with next_client_id := int_set_bit s.next_client_id (fd - FD_SETSIZE) }
  else
    { s with fd_to_id := (set_at s.fd_to_id ((fd - FD_SETSIZE - 32) / 32)
        (int_set_bit (s.fd_to_id ((fd - FD_SETSIZE - 32) / 32))
          ((fd - FD_SETSIZE - 32) % 32))) }

/-- Model of `FD_CLR(fd, &g_state.active_fds)`: clears the bit `FD_ISSET`
reads. -/
def FD_CLR (fd : Nat) (s : t_state) : t_state :=
  if fd < FD_SETSIZE then { s with active_fds := set_at s.active_fds fd false }
  else if fd < FD_SETSIZE + 32 then
    { s with next_client_id := int_clear_bit s.next_client_id (fd - FD_SETSIZE) }
  else
    { s with fd_to_id := (set_at s.fd_to_id ((fd - FD_SETSIZE - 32) / 32)
        (int_clear_bit (s.fd_to_id ((fd - FD_SETSIZE - 32) / 32))
          ((fd - FD_SETSIZE - 32) % 32))) }

/-- Model of `broadcast(int sender_fd, char *message)`: the calls of `send` it
makes, in the order of the loop `for (fd = 0; fd <= highest_fd; fd++)`, if
none of them ends the process. -/
def broadcast (s : t_state) (sender_fd : Nat) (message : CStr) : List Sent :=
  ((List.range (s.highest_fd + 1)).filter
    (fun fd => FD_ISSET fd s && decide (fd ≠ sender_fd) && decide (fd ≠ s.listen_fd))).map
    (fun fd => (fd, message))

/-- Model of `client_join(int client_fd)`: the new state and the sends made. -/
def client_join (s : t_state) (client_fd : Nat) : t_state × List Sent :=
  let s1 : t_state :=
    if client_fd > s.highest_fd then { s with highest_fd := client_fd } else s
  let s2 : t_state :=
    { s1 with fd_to_id := set_at s1.fd_to_id client_fd s1.next_client_id,
              next_client_id := to_int (s1.next_client_id + 1) }
  let s3 : t_state := { s2 with fd_to_buffer := set_at s2.fd_to_buffer client_fd none }
  let s4 : t_state := FD_SET client_fd s3
  (s4, broadcast s4 client_fd
    (bytes "server: client " ++ fmt_d (s4.fd_to_id client_fd) ++ bytes " just arrived\n"))

/-- Model of `client_leave(int client_fd)`.  `free` releases the buffer but
the table slot is not rewritten; `FD_CLR` removes the handle. -/
def client_leave (s : t_state) (client_fd : Nat) : t_state × List Sent :=
  let out := broadcast s client_fd
    (bytes "server: client " ++ fmt_d (s.fd_to_id client_fd) ++ bytes " just left\n")
  (FD_CLR client_fd s, out)

/-- What `client_message` leaves behind: the state, the lines it extracted in
order (a ghost record used by the framing properties) and the sends made. -/
structure Relayed where
  state : t_state
  lines : List CStr
  sent : List Sent

/-- The loop `while ((extract_result = extract_message(...)) == 1)` of
`client_message`, with a bound on the number of calls of `extract_message`;
`none` when the bound is reached before the loop ends. -/
def client_message_loop : Nat → t_state → Nat → Option Relayed
  | 0, _, _ => none
  | fuel + 1, s, client_fd =>
    let e := extract_message (s.fd_to_buffer client_fd)
    let s1 : t_state := { s with fd_to_buffer := set_at s.fd_to_buffer client_fd e.buf }
    if e.ret = 1 then
      match e.msg with
      | none => none
      | some line =>
        let o1 := broadcast s1 client_fd (bytes "client " ++ fmt_d (s1.fd_to_id client_fd) ++ bytes ": ")
        let o2 := broadcast s1 client_fd line
        match client_message_loop fuel s1 client_fd with
        | none => none
        | some r => some { state := r.state, lines := line :: r.lines, sent := o1 ++ o2 ++ r.sent }
    else some { state := s1, lines := [], sent := [] }

/-- Length of a possibly `NULL` string (0 for `NULL`). -/
def buf_len (buf : Option CStr) : Nat :=
  match buf with
  | none => 0
  | some b => b.length

/-- Model of `client_message(int client_fd)`.  The loop is run with a bound of
one call more than the length of the stored buffer. -/
def client_message (s : t_state) (client_fd : Nat) : Option Relayed :=
  client_message_loop (buf_len (s.fd_to_buffer client_fd) + 1) s client_fd

/-- What the operating system reports for one ready handle in one turn of the
loop `for (fd = 0; fd <= highest_fd; fd++)` of `server_loop`: the handle, the
value `accept` returns if it is called, the value `recv` returns if it is
called, and the contents of `g_recv_buffer` after that `recv`. -/
structure Ready where
  fd : Nat
  client_fd : Int
  recv_ret : Int
  recv_buf : List Byte

/-- Stages 5b and 5c of `server_loop` for a handle `fd` whose `recv` returned
`n > 0`: terminate `g_recv_buffer` at index `n`, append it to the stored buffer
with `str_join`, then `client_message`. -/
def client_data (s : t_state) (fd : Nat) (n : Nat) (recv_buf : List Byte) : Option Relayed :=
  let add := c_str (recv_buf.take n)
  let s1 : t_state :=
    { s with fd_to_buffer := set_at s.fd_to_buffer fd (str_join (s.fd_to_buffer fd) add) }
  client_message s1 fd

/-- Body of the loop of `server_loop` for one ready handle (stages 4a to 5c). -/
def server_loop_body (s : t_state) (r : Ready) : Option (t_state × List Sent) :=
  if r.fd = s.listen_fd then
    if r.client_fd ≥ 0 then some (client_join s r.client_fd.toNat) else some (s, [])
  else
    if r.recv_ret ≤ 0 then some (client_leave s r.fd)
    else
      match client_data s r.fd r.recv_ret.toNat r.recv_buf with
      | none => none
      | some res => some (res.state, res.sent)

/-- State on entry to `server_loop`, as `main` sets it up: everything zeroed,
then the listening handle recorded, made the scan limit and put in the active
set. -/
def main_state (listen_fd : Nat) : t_state :=
  FD_SET listen_fd
    { listen_fd := listen_fd,
      highest_fd := listen_fd,
      active_fds := fun _ => false,
      next_client_id := 0,
      fd_to_id := fun _ => 0,
      fd_to_buffer := fun _ => none }

/-- What holds of a report `r` in state `s` in a run that stays within the
limits of `fd_set` and `int`: the handle was in the set given to `select`;
`accept` never returns a handle that is still open; the handle it returns is
below `FD_SETSIZE` (as when the limit of the process on open descriptors is
at most `FD_SETSIZE`) and the counter has not reached `INT_MAX`; `recv`
returns at most the 1000 bytes asked for. -/
def EnvOk (s : t_state) (r : Ready) : Prop :=
  s.active_fds r.fd = true ∧
  (r.fd = s.listen_fd → 0 ≤ r.client_fd →
    s.active_fds r.client_fd.toNat = false ∧ r.client_fd.toNat < FD_SETSIZE ∧
      s.next_client_id < INT_MAX) ∧
  (r.fd ≠ s.listen_fd → r.recv_ret ≤ 1000)

/-- States of the server at the top of a turn of the loop of `server_loop`, in
a run that stays within the limits of `fd_set` and `int`: the listening handle
`socket` returned is below `FD_SETSIZE` and every turn had a report allowed by
`EnvOk` and returned. -/
inductive Reachable (listen_fd : Nat) : t_state → Prop
  | init : listen_fd < FD_SETSIZE → Reachable listen_fd (main_state listen_fd)
  | step {s s1 : t_state} {out : List Sent} (r : Ready) :
      Reachable listen_fd s → EnvOk s r → server_loop_body s r = some (s1, out) →
      Reachable listen_fd s1

/-- The outcome of one turn of the loop when the environment raises `SIGPIPE`
at the calls of `send` marked by `sigpipe` (calls of the turn counted from 0):
the process ends at the first marked call, so only the calls before it are
made and there is no state afterwards (`none`); without a marked call the turn
returns. -/
def server_loop_turn (sigpipe : Nat → Bool) (s : t_state) (r : Ready) :
    Option (Option t_state × List Sent) :=
  match server_loop_body s r with
  | none => none
  | some (s1, out) =>
    match (List.range out.length).find? sigpipe with
    | none => some (some s1, out)
    | some k => some (none, out.take k)

/-- Execution of a sequence of reports from a state, each of them allowed by
`EnvOk`: the final state and all the sends made, in order. -/
inductive Run : t_state → List Ready → t_state → List Sent → Prop
  | nil (s : t_state) : Run s [] s []
  | cons {s s1 s2 : t_state} {o1 o2 : List Sent} {r : Ready} {rs : List Ready} :
      EnvOk s r → server_loop_body s r = some (s1, o1) → Run s1 rs s2 o2 →
      Run s (r :: rs) s2 (o1 ++ o2)

/-- Successive reads on one handle: each chunk is what one `recv` put in
`g_recv_buffer` (its length is the value `recv` returned) and is handled by
stages 5b and 5c.  The result is the final state and the lines extracted by all
the reads, in order. -/
def read_all (s : t_state) (fd : Nat) : List (List Byte) → Option (t_state × List CStr)
  | [] => some (s, [])
  | d :: ds =>
    match client_data s fd d.length d with
    | none => none
    | some r =>
      match read_all r.state fd ds with
      | none => none
      | some (s2, ls) => some (s2, r.lines ++ ls)

/-- Specification side of framing: the newline-terminated pieces obtained by
splitting a stream on '\n'.  Every piece but the last one was followed by a
delimiter in the stream. -/
def spec_lines (stream : List Byte) : List (List Byte) :=
  ((stream.splitOn NL).dropLast).map (fun piece => piece ++ [NL])

/-- Specification side of framing: the unterminated remainder, that is the
bytes after the last '\n' of the stream. -/
def spec_rest (stream : List Byte) : List Byte :=
  (stream.splitOn NL).getLastD []

/-- The pending bytes of a connection: a `NULL` buffer holds nothing. -/
def buf_bytes (buf : Option CStr) : List Byte :=
  match buf with
  | none => []
  | some b => b

/-- The text `sprintf(g_message_buffer, "client %d: ", id)` produces. -/
def relay_head (id : Int) : List Byte := bytes "client " ++ fmt_d id ++ bytes ": "

/-- The sends of a relay of `lines` from `sender_fd`: for each line, in order,
the broadcast of the identity prefix and then the broadcast of the line. -/
def relay (s : t_state) (sender_fd : Nat) (lines : List CStr) : List Sent :=
  lines.flatMap (fun line =>
    broadcast s sender_fd (relay_head (s.fd_to_id sender_fd)) ++ broadcast s sender_fd line)

instance (s : t_state) (r : Ready) : Decidable (EnvOk s r) := by
  unfold EnvOk; infer_instance

/-- The report of a chunk `d` received on handle `fd`: `recv` returned the
length of `d` and `g_recv_buffer` holds `d`. -/
def recv_report (fd : Nat) (d : List Byte) : Ready :=
  { fd := fd, client_fd := -1, recv_ret := d.length, recv_buf := d }

/-- The report of `accept` returning `client_fd` on the listening handle. -/
def accept_report (listen_fd : Nat) (client_fd : Int) : Ready :=
  { fd := listen_fd, client_fd := client_fd, recv_ret := 0, recv_buf := [] }

/-- The report of `recv` returning `n` (used with `n ≤ 0`) on handle `fd`. -/
def close_report (fd : Nat) (n : Int) : Ready :=
  { fd := fd, client_fd := -1, recv_ret := n, recv_buf := [] }

/-- Number of reports of a sequence that make `server_loop` call
`client_join`: `accept` on the listening handle returned a handle. -/
def count_joins (listen_fd : Nat) (evs : List Ready) : Nat :=
  (evs.filter (fun r => decide (r.fd = listen_fd) && decide (0 ≤ r.client_fd))).length

/-- The stream a handle receives: the payloads of the sends addressed to it,
concatenated in order. -/
def received (fd : Nat) (out : List Sent) : List Byte :=
  ((out.filter (fun e => e.1 = fd)).map Prod.snd).flatten

/-- An example state: listening handle 3, then clients accepted on handles 4
and 5 (identities 0 and 1). -/
def two_clients : t_state := (client_join (client_join (main_state 3) 4).1 5).1

/-- Facts that hold in every state of `Reachable` for listening handle `L`:
at the top of a turn of the loop, in a run within the limits of `fd_set` and
`int`. -/
structure Inv (L : Nat) (s : t_state) : Prop where
  listen : s.listen_fd = L
  listen_active : s.active_fds L = true
  bound : ∀ fd, s.active_fds fd = true → fd ≤ s.highest_fd
  limit : s.highest_fd < FD_SETSIZE
  counter : 0 ≤ s.next_client_id
  ids : ∀ fd, s.active_fds fd = true → fd ≠ L →
    0 ≤ s.fd_to_id fd ∧ s.fd_to_id fd < s.next_client_id
  unique : ∀ a b, s.active_fds a = true → s.active_fds b = true → a ≠ L → b ≠ L →
    a ≠ b → s.fd_to_id a ≠ s.fd_to_id b

/-- An example state: `two_clients` with the bytes `zz` pending in the buffer
of handle 4. -/
def pending_client : t_state :=
  { two_clients with fd_to_buffer := set_at two_clients.fd_to_buffer 4 (some (bytes "zz")) }

/-- The call made by one turn of the loop of `server_loop`: `client_join` on
the accepted handle, nothing (`accept` failed), `client_leave` on the handle,
or `str_join` followed by `client_message` on the handle. -/
inductive Call
  | join (client_fd : Nat)
  | skip
  | leave (fd : Nat)
  | message (fd : Nat)
  deriving DecidableEq

/-- Which call the body of the loop of `server_loop` makes for a report: the
tests `fd == listen_fd`, `client_fd >= 0` and `bytes <= 0` of the source. -/
def server_loop_call (s : t_state) (r : Ready) : Call :=
  if r.fd = s.listen_fd then
    if r.client_fd ≥ 0 then Call.join r.client_fd.toNat else Call.skip
  else
    if r.recv_ret ≤ 0 then Call.leave r.fd else Call.message r.fd

/-- The loop `for (fd = 0; fd <= highest_fd; fd++)` of `server_loop` from index
`fd` on, for the set `ready` left by `select` and the answers `os` of the
operating system for each handle; the scan limit is read again at every turn.
The bound counts the turns of the loop; `none` when it is reached.  The result
is the final state, the sends, and for every handle that was served the call
made for it (a ghost record). -/
def server_loop_scan : Nat → t_state → Nat → (Nat → Bool) → (Nat → Ready) →
    Option (t_state × List Sent × List (Nat × Call))
  | 0, _, _, _, _ => none
  | fuel + 1, s, fd, ready, os =>
    if fd ≤ s.highest_fd then
      if ready fd = false then server_loop_scan fuel s (fd + 1) ready os
      else
        match server_loop_body s { os fd with fd := fd } with
        | none => none
        | some (s1, o1) =>
          match server_loop_scan fuel s1 (fd + 1) ready os with
          | none => none
          | some (s2, o2, calls) =>
            some (s2, o1 ++ o2, (fd, server_loop_call s { os fd with fd := fd }) :: calls)
    else some (s, [], [])

/-- The turns of the loop of `server_loop` for a list of reports, one after
the other from a state: the final state and all the calls of `send`, in
order. -/
def server_loop_turns : t_state → List Ready → Option (t_state × List Sent)
  | s, [] => some (s, [])
  | s, r :: rs =>
    match server_loop_body s r with
    | none => none
    | some (s1, o1) =>
      match server_loop_turns s1 rs with
      | none => none
      | some (s2, o2) => some (s2, o1 ++ o2)

/-- An example state: listening handle 3, then clients accepted on handles 4
and 1024, the first handle that an `fd_set` does not hold. -/
def client_on_1024 : t_state := (client_join (client_join (main_state 3) 4).1 1024).1

/-- An example state: `client_on_1024` after one more client was accepted, on
handle 5. -/
def clients_around_1024 : t_state := (client_join client_on_1024 5).1

/-- An example state: listening handle 3, then clients accepted on handles 4,
5 and 1025. -/
def client_on_1025 : t_state := (client_join two_clients 1025).1

/-- An example state: `two_clients` after one more client was accepted, on
handle 6 (identity 2). -/
def three_clients : t_state := (client_join two_clients 6).1

/-- The reports of `n` clients that connect one after the other while none
disconnects: `accept` returns the handles `first`, `first + 1`, ... in turn. -/
def accept_reports (listen_fd first n : Nat) : List Ready :=
  (List.range' first n).map (fun (h : Nat) => accept_report listen_fd (h : Int))

/-! ## Framing: `extract_message` and `str_join` -/

theorem extract_scan_none {b : CStr} (h : NL ∉ b) (i : Nat) : extract_scan b i = none := by
  induction b generalizing i with
  | nil => rfl
  | cons c rest ih =>
    have hc : c ≠ NL := fun e => h (by simp [e])
    have hr : NL ∉ rest := fun e => h (by simp [e])
    simp [extract_scan, hc, ih hr]

theorem extract_scan_first {p : CStr} (h : NL ∉ p) (rest : CStr) (i : Nat) :
    extract_scan (p ++ NL :: rest) i = some (i + p.length) := by
  induction p generalizing i with
  | nil => simp [extract_scan]
  | cons c q ih =>
    have hc : c ≠ NL := fun e => h (by simp [e])
    have hq : NL ∉ q := fun e => h (by simp [e])
    simp [extract_scan, hc, ih hq]
    omega

theorem split_first {b : CStr} (h : NL ∈ b) :
    ∃ p rest, NL ∉ p ∧ b = p ++ NL :: rest := by
  induction b with
  | nil => simp at h
  | cons c q ih =>
    by_cases hc : c = NL
    · exact ⟨[], q, by simp, by simp [hc]⟩
    · have hq : NL ∈ q := by
        rcases List.mem_cons.mp h with e | e
        · exact absurd e.symm hc
        · exact e
      obtain ⟨p, rest, hp, hb⟩ := ih hq
      refine ⟨c :: p, rest, ?_, by simp [hb]⟩
      simp only [List.mem_cons, not_or]
      exact ⟨fun e => hc e.symm, hp⟩

theorem extract_message_none_of_no_nl {b : CStr} (h : NL ∉ b) :
    extract_message (some b) = { ret := 0, buf := some b, msg := none } := by
  simp [extract_message, extract_scan_none h]

theorem extract_message_first {p : CStr} (h : NL ∉ p) (rest : CStr) :
    extract_message (some (p ++ NL :: rest)) =
      { ret := 1, buf := some rest, msg := some (p ++ [NL]) } := by
  simp [extract_message, extract_scan_first h, List.take_append_eq_append_take]

/-- C10: single-step postcondition of `extract_message`.  On a buffer that
contains a '\n' it returns 1, the message is the prefix up to and including the
first '\n' (exactly one '\n', as its last byte), the new buffer is the rest and
message followed by new buffer is the old buffer; on `NULL` or a buffer without
'\n' it returns 0, gives no message and leaves the buffer as it was. -/
theorem extract_message_post (b : CStr) :
    (NL ∈ b → ∃ p rest, NL ∉ p ∧ b = p ++ NL :: rest ∧
        extract_message (some b) = { ret := 1, buf := some rest, msg := some (p ++ [NL]) } ∧
        (p ++ [NL]) ++ rest = b ∧ (p ++ [NL]).count NL = 1 ∧
        (p ++ [NL]).getLast? = some NL) ∧
    (NL ∉ b → extract_message (some b) = { ret := 0, buf := some b, msg := none }) ∧
    extract_message none = { ret := 0, buf := none, msg := none } := by
  refine ⟨fun h => ?_, extract_message_none_of_no_nl, rfl⟩
  obtain ⟨p, rest, hp, hb⟩ := split_first h
  refine ⟨p, rest, hp, hb, ?_, by simp [hb], ?_, by simp⟩
  · rw [hb]; exact extract_message_first hp rest
  · simp [List.count_eq_zero.mpr hp]

theorem extract_message_post_witness :
    (NL ∈ bytes "ab\ncd\ne" ∧
      ∃ p rest, NL ∉ p ∧ bytes "ab\ncd\ne" = p ++ NL :: rest ∧
        extract_message (some (bytes "ab\ncd\ne")) =
          { ret := 1, buf := some rest, msg := some (p ++ [NL]) } ∧
        (p ++ [NL]) ++ rest = bytes "ab\ncd\ne" ∧ (p ++ [NL]).count NL = 1 ∧
        (p ++ [NL]).getLast? = some NL) ∧
    (NL ∉ bytes "abc" ∧
      extract_message (some (bytes "abc")) =
        { ret := 0, buf := some (bytes "abc"), msg := none }) :=
  ⟨⟨by decide, (extract_message_post (bytes "ab\ncd\ne")).1 (by decide)⟩,
   ⟨by decide, (extract_message_post (bytes "abc")).2.1 (by decide)⟩⟩

/-! ## The specification of framing -/

theorem spec_split_no_nl {b : List Byte} (h : NL ∉ b) : b.splitOn NL = [b] := by
  unfold List.splitOn
  apply List.splitOnP_eq_single
  intro x hx hxb
  have : x = NL := by simpa using hxb
  exact h (this ▸ hx)

theorem spec_split_first {p : List Byte} (h : NL ∉ p) (rest : List Byte) :
    (p ++ NL :: rest).splitOn NL = p :: rest.splitOn NL := by
  unfold List.splitOn
  apply List.splitOnP_first
  · intro x hx hxb
    have : x = NL := by simpa using hxb
    exact h (this ▸ hx)
  · simp

theorem spec_split_ne_nil (b : List Byte) : b.splitOn NL ≠ [] := by
  unfold List.splitOn
  exact List.splitOnP_ne_nil _ _

theorem spec_lines_no_nl {b : List Byte} (h : NL ∉ b) : spec_lines b = [] := by
  simp [spec_lines, spec_split_no_nl h]

theorem spec_rest_no_nl {b : List Byte} (h : NL ∉ b) : spec_rest b = b := by
  simp [spec_rest, spec_split_no_nl h]

theorem spec_lines_first {p : List Byte} (h : NL ∉ p) (rest : List Byte) :
    spec_lines (p ++ NL :: rest) = (p ++ [NL]) :: spec_lines rest := by
  unfold spec_lines
  rw [spec_split_first h]
  obtain ⟨x, xs, hx⟩ := List.exists_cons_of_ne_nil (spec_split_ne_nil rest)
  rw [hx]
  simp [List.dropLast]

theorem spec_rest_first {p : List Byte} (h : NL ∉ p) (rest : List Byte) :
    spec_rest (p ++ NL :: rest) = spec_rest rest := by
  unfold spec_rest
  rw [spec_split_first h]
  obtain ⟨x, xs, hx⟩ := List.exists_cons_of_ne_nil (spec_split_ne_nil rest)
  rw [hx]
  simp [List.getLastD]

theorem nl_induction {P : List Byte → Prop} (h0 : ∀ b, NL ∉ b → P b)
    (h1 : ∀ p rest, NL ∉ p → P rest → P (p ++ NL :: rest)) : ∀ b, P b := by
  suffices H : ∀ n, ∀ b : List Byte, b.length ≤ n → P b from fun b => H b.length b le_rfl
  intro n
  induction n with
  | zero =>
    intro b hb
    have : b = [] := List.length_eq_zero.mp (Nat.le_zero.mp hb)
    subst this
    exact h0 [] (by simp)
  | succ n ih =>
    intro b hb
    by_cases h : NL ∈ b
    · obtain ⟨p, rest, hp, hpr⟩ := split_first h
      subst hpr
      apply h1 p rest hp
      apply ih
      simp only [List.length_append, List.length_cons] at hb
      omega
    · exact h0 b h

theorem spec_rest_nl_free (b : List Byte) : NL ∉ spec_rest b := by
  induction b using nl_induction with
  | h0 b h => rw [spec_rest_no_nl h]; exact h
  | h1 p rest hp ih => rw [spec_rest_first hp]; exact ih

theorem spec_lines_join (b : List Byte) : (spec_lines b).flatten ++ spec_rest b = b := by
  induction b using nl_induction with
  | h0 b h => simp [spec_lines_no_nl h, spec_rest_no_nl h]
  | h1 p rest hp ih =>
    rw [spec_lines_first hp, spec_rest_first hp]
    simp only [List.flatten_cons, List.append_assoc, List.singleton_append]
    rw [List.cons_append, ih]

theorem spec_lines_append (x y : List Byte) :
    spec_lines (x ++ y) = spec_lines x ++ spec_lines (spec_rest x ++ y) := by
  induction x using nl_induction with
  | h0 b h => simp [spec_lines_no_nl h, spec_rest_no_nl h]
  | h1 p rest hp ih =>
    rw [List.append_assoc, List.cons_append, spec_lines_first hp, spec_lines_first hp,
      spec_rest_first hp, ih, List.cons_append]

theorem spec_rest_append (x y : List Byte) :
    spec_rest (x ++ y) = spec_rest (spec_rest x ++ y) := by
  induction x using nl_induction with
  | h0 b h => simp [spec_rest_no_nl h]
  | h1 p rest hp ih =>
    rw [List.append_assoc, List.cons_append, spec_rest_first hp, spec_rest_first hp, ih]

/-! ## The extraction loop -/

@[simp] theorem set_at_same {α : Type} (t : Nat → α) (k : Nat) (v : α) : set_at t k v k = v := by
  simp [set_at]

theorem set_at_other {α : Type} (t : Nat → α) {k j : Nat} (v : α) (h : j ≠ k) :
    set_at t k v j = t j := by
  simp [set_at, h]

@[simp] theorem set_at_set_at {α : Type} (t : Nat → α) (k : Nat) (v w : α) :
    set_at (set_at t k v) k w = set_at t k w := by
  funext j
  by_cases h : j = k <;> simp [set_at, h]

theorem client_message_loop_spec (h : Nat) (fuel : Nat) :
    ∀ (s : t_state) (b : CStr), s.fd_to_buffer h = some b → b.length < fuel →
      client_message_loop fuel s h = some
        { state := { s with fd_to_buffer := set_at s.fd_to_buffer h (some (spec_rest b)) },
          lines := spec_lines b,
          sent := relay s h (spec_lines b) } := by
  induction fuel with
  | zero => intro s b _ hf; omega
  | succ fuel ih =>
    intro s b hb hf
    by_cases hnl : NL ∈ b
    · obtain ⟨p, rest, hp, hpr⟩ := split_first hnl
      subst hpr
      have hlen : rest.length < fuel := by
        simp only [List.length_append, List.length_cons] at hf; omega
      have step := ih { s with fd_to_buffer := set_at s.fd_to_buffer h (some rest) } rest
        (by simp) hlen
      simp only [client_message_loop, hb, extract_message_first hp, step, if_true,
        spec_lines_first hp, spec_rest_first hp, set_at_set_at]
      simp [relay, broadcast, relay_head, FD_ISSET]
    · simp [client_message_loop, hb, extract_message_none_of_no_nl hnl,
        spec_lines_no_nl hnl, spec_rest_no_nl hnl, relay]

theorem client_data_spec (s : t_state) (h n : Nat) (recv_buf : List Byte) :
    client_data s h n recv_buf = some
      { state := { s with fd_to_buffer := (set_at s.fd_to_buffer h
          (some (spec_rest (buf_bytes (s.fd_to_buffer h) ++ c_str (recv_buf.take n))))) },
        lines := spec_lines (buf_bytes (s.fd_to_buffer h) ++ c_str (recv_buf.take n)),
        sent := relay s h (spec_lines (buf_bytes (s.fd_to_buffer h) ++ c_str (recv_buf.take n))) } := by
  have key : str_join (s.fd_to_buffer h) (c_str (recv_buf.take n)) =
      some (buf_bytes (s.fd_to_buffer h) ++ c_str (recv_buf.take n)) := by
    cases s.fd_to_buffer h <;> simp [str_join, buf_bytes]
  unfold client_data client_message
  simp only [set_at_same, key, buf_len]
  rw [client_message_loop_spec h _ _
    (buf_bytes (s.fd_to_buffer h) ++ c_str (recv_buf.take n)) (by simp) (by omega)]
  simp [relay, broadcast, FD_ISSET]

theorem c_str_of_no_zero {d : List Byte} (h : (0 : Byte) ∉ d) : c_str d = d := by
  unfold c_str
  rw [List.takeWhile_eq_self_iff]
  intro x hx
  have : x ≠ 0 := fun e => h (e ▸ hx)
  simpa using this

theorem buf_bytes_some (b : CStr) : buf_bytes (some b) = b := rfl

theorem read_all_spec (fd : Nat) (chunks : List (List Byte)) :
    ∀ s : t_state, NL ∉ buf_bytes (s.fd_to_buffer fd) →
      ∃ s1, read_all s fd chunks = some (s1,
          spec_lines (buf_bytes (s.fd_to_buffer fd) ++ (chunks.map c_str).flatten)) ∧
        buf_bytes (s1.fd_to_buffer fd) =
          spec_rest (buf_bytes (s.fd_to_buffer fd) ++ (chunks.map c_str).flatten) := by
  induction chunks with
  | nil =>
    intro s hs
    exact ⟨s, by simp [read_all, spec_lines_no_nl hs], by simp [spec_rest_no_nl hs]⟩
  | cons d ds ih =>
    intro s hs
    have hd := client_data_spec s fd d.length d
    rw [List.take_length] at hd
    obtain ⟨s1, h1, h2⟩ := ih
      { s with fd_to_buffer := (set_at s.fd_to_buffer fd
          (some (spec_rest (buf_bytes (s.fd_to_buffer fd) ++ c_str d)))) }
      (by simpa [buf_bytes_some] using spec_rest_nl_free _)
    refine ⟨s1, ?_, ?_⟩
    · simp only [read_all, hd, h1, set_at_same, buf_bytes_some, List.map_cons,
        List.flatten_cons]
      rw [← List.append_assoc, spec_lines_append (buf_bytes (s.fd_to_buffer fd) ++ c_str d)]
    · rw [h2]
      simp only [set_at_same, buf_bytes_some, List.map_cons, List.flatten_cons]
      rw [← List.append_assoc, spec_rest_append (buf_bytes (s.fd_to_buffer fd) ++ c_str d)]

/-- C1 (as amended): for a stream without zero byte, cut in any way into
non-empty chunks of at most 1000 bytes read one after the other on a handle
whose buffer starts empty, the lines extracted over all the reads are, in
order, the newline-terminated pieces of the whole stream; what follows the
last '\n' stays in the buffer and is not among the lines. -/
theorem framing_split_independent (s : t_state) (fd : Nat) (chunks : List (List Byte))
    (hempty : s.fd_to_buffer fd = none)
    (_hsize : ∀ d ∈ chunks, d ≠ [] ∧ d.length ≤ 1000)
    (hzero : ∀ d ∈ chunks, (0 : Byte) ∉ d) :
    ∃ s1, read_all s fd chunks = some (s1, spec_lines chunks.flatten) ∧
      buf_bytes (s1.fd_to_buffer fd) = spec_rest chunks.flatten ∧
      (spec_lines chunks.flatten).flatten ++ spec_rest chunks.flatten = chunks.flatten ∧
      NL ∉ spec_rest chunks.flatten := by
  have hmap : chunks.map c_str = chunks := by
    conv => rhs; rw [← List.map_id chunks]
    exact List.map_congr_left (fun d hd => c_str_of_no_zero (hzero d hd))
  obtain ⟨s1, h1, h2⟩ := read_all_spec fd chunks s (by simp [hempty, buf_bytes])
  rw [hmap] at h1 h2
  simp only [hempty, buf_bytes, List.nil_append] at h1 h2
  exact ⟨s1, h1, h2, spec_lines_join _, spec_rest_nl_free _⟩

theorem framing_split_independent_witness :
    ∃ s1, read_all (client_join (main_state 3) 4).1 4 [bytes "ab", bytes "c\nd", bytes "\n\nx"] =
        some (s1, spec_lines [bytes "ab", bytes "c\nd", bytes "\n\nx"].flatten) ∧
      buf_bytes (s1.fd_to_buffer 4) = spec_rest [bytes "ab", bytes "c\nd", bytes "\n\nx"].flatten ∧
      (spec_lines [bytes "ab", bytes "c\nd", bytes "\n\nx"].flatten).flatten ++
        spec_rest [bytes "ab", bytes "c\nd", bytes "\n\nx"].flatten =
          [bytes "ab", bytes "c\nd", bytes "\n\nx"].flatten ∧
      NL ∉ spec_rest [bytes "ab", bytes "c\nd", bytes "\n\nx"].flatten :=
  framing_split_independent (client_join (main_state 3) 4).1 4
    [bytes "ab", bytes "c\nd", bytes "\n\nx"] (by rfl) (by decide) (by decide)

/-- C1 as stated fails on a stream with a zero byte: the single chunk
`a`, NUL, `b`, '\n' is one newline-terminated piece, but `str_join` appends only
`a`, so no line is extracted. -/
theorem framing_zero_byte_counterexample :
    ((read_all (client_join (main_state 3) 4).1 4 [[97, 0, 98, 10]]).map Prod.snd = some [] ∧
      spec_lines [[97, 0, 98, 10]].flatten = [[97, 0, 98, 10]]) ∧
    ¬ (∀ (s : t_state) (fd : Nat) (chunks : List (List Byte)),
        s.fd_to_buffer fd = none → (∀ d ∈ chunks, d ≠ [] ∧ d.length ≤ 1000) →
        ∃ s1, read_all s fd chunks = some (s1, spec_lines chunks.flatten)) := by
  have hcode : (read_all (client_join (main_state 3) 4).1 4 [[97, 0, 98, 10]]).map Prod.snd
      = some [] := by decide
  refine ⟨⟨hcode, by decide⟩, fun H => ?_⟩
  obtain ⟨s1, h1⟩ := H (client_join (main_state 3) 4).1 4 [[97, 0, 98, 10]] (by rfl) (by decide)
  rw [h1, Option.map_some'] at hcode
  have hne : ¬ (some (spec_lines [[97, 0, 98, 10]].flatten) = some []) := by decide
  exact hne hcode

/-! ## The handle set and the counter -/

theorem to_int_of_range {x : Int} (h1 : -2147483648 ≤ x) (h2 : x ≤ INT_MAX) : to_int x = x := by
  unfold INT_MAX at h2
  unfold to_int
  omega

theorem FD_ISSET_small {fd : Nat} (h : fd < FD_SETSIZE) (s : t_state) :
    FD_ISSET fd s = s.active_fds fd := by
  simp [FD_ISSET, h]

theorem FD_SET_small {fd : Nat} (h : fd < FD_SETSIZE) (s : t_state) :
    FD_SET fd s = { s with active_fds := set_at s.active_fds fd true } := by
  simp [FD_SET, h]

theorem FD_CLR_small {fd : Nat} (h : fd < FD_SETSIZE) (s : t_state) :
    FD_CLR fd s = { s with active_fds := set_at s.active_fds fd false } := by
  simp [FD_CLR, h]

theorem FD_SET_listen_fd (fd : Nat) (s : t_state) : (FD_SET fd s).listen_fd = s.listen_fd := by
  unfold FD_SET; split_ifs <;> rfl

theorem FD_SET_highest_fd (fd : Nat) (s : t_state) :
    (FD_SET fd s).highest_fd = s.highest_fd := by
  unfold FD_SET; split_ifs <;> rfl

theorem FD_SET_fd_to_buffer (fd : Nat) (s : t_state) :
    (FD_SET fd s).fd_to_buffer = s.fd_to_buffer := by
  unfold FD_SET; split_ifs <;> rfl

theorem FD_SET_active_fds (fd : Nat) (s : t_state) :
    (FD_SET fd s).active_fds =
      if fd < FD_SETSIZE then set_at s.active_fds fd true else s.active_fds := by
  unfold FD_SET; split_ifs <;> rfl

theorem FD_CLR_listen_fd (fd : Nat) (s : t_state) : (FD_CLR fd s).listen_fd = s.listen_fd := by
  unfold FD_CLR; split_ifs <;> rfl

theorem FD_CLR_highest_fd (fd : Nat) (s : t_state) :
    (FD_CLR fd s).highest_fd = s.highest_fd := by
  unfold FD_CLR; split_ifs <;> rfl

theorem FD_CLR_fd_to_buffer (fd : Nat) (s : t_state) :
    (FD_CLR fd s).fd_to_buffer = s.fd_to_buffer := by
  unfold FD_CLR; split_ifs <;> rfl

theorem FD_CLR_active_fds (fd : Nat) (s : t_state) :
    (FD_CLR fd s).active_fds =
      if fd < FD_SETSIZE then set_at s.active_fds fd false else s.active_fds := by
  unfold FD_CLR; split_ifs <;> rfl

theorem broadcast_congr {s t : t_state} (h1 : t.highest_fd = s.highest_fd)
    (h2 : t.listen_fd = s.listen_fd) (h3 : t.active_fds = s.active_fds)
    (h4 : t.next_client_id = s.next_client_id) (h5 : t.fd_to_id = s.fd_to_id)
    (sender : Nat) (msg : CStr) : broadcast t sender msg = broadcast s sender msg := by
  simp [broadcast, FD_ISSET, h1, h2, h3, h4, h5]

/-! ## One turn of the loop of `server_loop` -/

theorem client_join_listen_fd (s : t_state) (h : Nat) :
    (client_join s h).1.listen_fd = s.listen_fd := by
  unfold client_join
  simp only [FD_SET_listen_fd]
  split_ifs <;> rfl

theorem client_join_highest_fd (s : t_state) (h : Nat) :
    (client_join s h).1.highest_fd = if h > s.highest_fd then h else s.highest_fd := by
  unfold client_join
  simp only [FD_SET_highest_fd]
  split_ifs <;> rfl

theorem client_join_fd_to_buffer (s : t_state) (h : Nat) :
    (client_join s h).1.fd_to_buffer = set_at s.fd_to_buffer h none := by
  unfold client_join
  simp only [FD_SET_fd_to_buffer]
  split_ifs <;> rfl

theorem client_join_active_fds_any (s : t_state) (h : Nat) :
    (client_join s h).1.active_fds =
      if h < FD_SETSIZE then set_at s.active_fds h true else s.active_fds := by
  unfold client_join
  simp only [FD_SET_active_fds]
  split_ifs <;> rfl

theorem client_join_active_fds (s : t_state) {h : Nat} (hh : h < FD_SETSIZE) :
    (client_join s h).1.active_fds = set_at s.active_fds h true := by
  rw [client_join_active_fds_any, if_pos hh]

theorem client_join_next_client_id (s : t_state) {h : Nat} (hh : h < FD_SETSIZE)
    (h0 : 0 ≤ s.next_client_id) (hc : s.next_client_id < INT_MAX) :
    (client_join s h).1.next_client_id = s.next_client_id + 1 := by
  have hw : to_int (s.next_client_id + 1) = s.next_client_id + 1 :=
    to_int_of_range (by omega) (by omega)
  unfold client_join
  simp only [FD_SET_small hh]
  split_ifs <;> exact hw

theorem client_join_fd_to_id (s : t_state) {h : Nat} (hh : h < FD_SETSIZE) :
    (client_join s h).1.fd_to_id = set_at s.fd_to_id h s.next_client_id := by
  unfold client_join
  simp only [FD_SET_small hh]
  split_ifs <;> rfl

theorem client_join_sent (s : t_state) {h : Nat} (hh : h < FD_SETSIZE) :
    (client_join s h).2 = broadcast (client_join s h).1 h
      (bytes "server: client " ++ fmt_d s.next_client_id ++ bytes " just arrived\n") := by
  unfold client_join
  simp only [FD_SET_small hh]
  split_ifs <;> simp

theorem client_leave_sent (s : t_state) (h : Nat) :
    (client_leave s h).2 = broadcast s h
      (bytes "server: client " ++ fmt_d (s.fd_to_id h) ++ bytes " just left\n") := rfl

theorem client_leave_state (s : t_state) (h : Nat) : (client_leave s h).1 = FD_CLR h s := rfl

theorem client_leave_small (s : t_state) {h : Nat} (hh : h < FD_SETSIZE) :
    (client_leave s h).1 = { s with active_fds := set_at s.active_fds h false } := by
  rw [client_leave_state, FD_CLR_small hh]

theorem server_loop_body_accept {s : t_state} {r : Ready} (h : r.fd = s.listen_fd)
    (hc : 0 ≤ r.client_fd) :
    server_loop_body s r = some (client_join s r.client_fd.toNat) := by
  simp [server_loop_body, h, hc]

theorem server_loop_body_accept_fail {s : t_state} {r : Ready} (h : r.fd = s.listen_fd)
    (hc : r.client_fd < 0) : server_loop_body s r = some (s, []) := by
  simp [server_loop_body, h, hc]

theorem server_loop_body_leave {s : t_state} {r : Ready} (h : r.fd ≠ s.listen_fd)
    (hn : r.recv_ret ≤ 0) : server_loop_body s r = some (client_leave s r.fd) := by
  simp [server_loop_body, h, hn]

theorem server_loop_body_data {s : t_state} {r : Ready} (h : r.fd ≠ s.listen_fd)
    (hn : 0 < r.recv_ret) :
    server_loop_body s r = some
      ({ s with fd_to_buffer := (set_at s.fd_to_buffer r.fd
          (some (spec_rest (buf_bytes (s.fd_to_buffer r.fd) ++
            c_str (r.recv_buf.take r.recv_ret.toNat))))) },
       relay s r.fd (spec_lines (buf_bytes (s.fd_to_buffer r.fd) ++
            c_str (r.recv_buf.take r.recv_ret.toNat)))) := by
  have hn2 : ¬ r.recv_ret ≤ 0 := by omega
  simp [server_loop_body, h, hn2, client_data_spec]

theorem server_loop_body_eq_client_data (s : t_state) (h : Nat) (hL : h ≠ s.listen_fd)
    (d : List Byte) (hd : d ≠ []) :
    server_loop_body s (recv_report h d) =
      (client_data s h d.length d).map (fun res => (res.state, res.sent)) := by
  have hpos : ¬ ((d.length : Int) ≤ 0) := by
    have : 0 < d.length := List.length_pos.mpr hd
    omega
  simp [server_loop_body, recv_report, hL, hpos, client_data_spec]

theorem server_loop_body_total (s : t_state) (r : Ready) :
    ∃ res, server_loop_body s r = some res := by
  by_cases h : r.fd = s.listen_fd
  · by_cases hc : 0 ≤ r.client_fd
    · exact ⟨_, server_loop_body_accept h hc⟩
    · exact ⟨_, server_loop_body_accept_fail h (by omega)⟩
  · by_cases hn : r.recv_ret ≤ 0
    · exact ⟨_, server_loop_body_leave h hn⟩
    · exact ⟨_, server_loop_body_data h (by omega)⟩

theorem server_loop_body_cases {s s1 : t_state} {r : Ready} {out : List Sent}
    (hstep : server_loop_body s r = some (s1, out)) :
    (r.fd = s.listen_fd ∧ 0 ≤ r.client_fd ∧ s1 = (client_join s r.client_fd.toNat).1 ∧
        out = (client_join s r.client_fd.toNat).2) ∨
    (r.fd = s.listen_fd ∧ r.client_fd < 0 ∧ s1 = s ∧ out = []) ∨
    (r.fd ≠ s.listen_fd ∧ r.recv_ret ≤ 0 ∧ s1 = (client_leave s r.fd).1 ∧
        out = (client_leave s r.fd).2) ∨
    (r.fd ≠ s.listen_fd ∧ 0 < r.recv_ret ∧
      s1 = { s with fd_to_buffer := (set_at s.fd_to_buffer r.fd
          (some (spec_rest (buf_bytes (s.fd_to_buffer r.fd) ++
            c_str (r.recv_buf.take r.recv_ret.toNat))))) } ∧
      out = relay s r.fd (spec_lines (buf_bytes (s.fd_to_buffer r.fd) ++
            c_str (r.recv_buf.take r.recv_ret.toNat)))) := by
  by_cases h : r.fd = s.listen_fd
  · by_cases hc : 0 ≤ r.client_fd
    · rw [server_loop_body_accept h hc] at hstep
      have := Option.some.inj hstep
      exact Or.inl ⟨h, hc, (congrArg Prod.fst this).symm, (congrArg Prod.snd this).symm⟩
    · rw [server_loop_body_accept_fail h (by omega)] at hstep
      have := Option.some.inj hstep
      exact Or.inr (Or.inl ⟨h, by omega, (congrArg Prod.fst this).symm, (congrArg Prod.snd this).symm⟩)
  · by_cases hn : r.recv_ret ≤ 0
    · rw [server_loop_body_leave h hn] at hstep
      have := Option.some.inj hstep
      exact Or.inr (Or.inr (Or.inl ⟨h, hn, (congrArg Prod.fst this).symm, (congrArg Prod.snd this).symm⟩))
    · rw [server_loop_body_data h (by omega)] at hstep
      have := Option.some.inj hstep
      exact Or.inr (Or.inr (Or.inr ⟨h, by omega, (congrArg Prod.fst this).symm, (congrArg Prod.snd this).symm⟩))


/-! ## Invariants -/

theorem main_state_small {L : Nat} (hL : L < FD_SETSIZE) :
    main_state L =
      { listen_fd := L, highest_fd := L, active_fds := set_at (fun _ => false) L true,
        next_client_id := 0, fd_to_id := fun _ => 0, fd_to_buffer := fun _ => none } := by
  unfold main_state
  rw [FD_SET_small hL]

theorem inv_main_state (L : Nat) (hL : L < FD_SETSIZE) : Inv L (main_state L) := by
  rw [main_state_small hL]
  refine ⟨rfl, by simp, ?_, hL, by simp, ?_, ?_⟩
  · intro fd hfd
    by_cases e : fd = L
    · simp [e]
    · simp [set_at, e] at hfd
  · intro fd hfd e
    simp [set_at, e] at hfd
  · intro a b ha _ e
    simp [set_at, e] at ha

theorem inv_client_join {L : Nat} {s : t_state} (hs : Inv L s) {h : Nat}
    (hh : h < FD_SETSIZE) (hc : s.next_client_id < INT_MAX) :
    Inv L (client_join s h).1 := by
  have hnext := client_join_next_client_id s hh hs.counter hc
  refine ⟨?_, ?_, ?_, ?_, ?_, ?_, ?_⟩
  · rw [client_join_listen_fd]; exact hs.listen
  · rw [client_join_active_fds s hh]
    by_cases e : L = h
    · simp [set_at, e]
    · simp [set_at, e, hs.listen_active]
  · intro fd hfd
    rw [client_join_active_fds s hh] at hfd
    rw [client_join_highest_fd]
    by_cases e : fd = h
    · subst e; split_ifs <;> omega
    · rw [set_at_other _ _ e] at hfd
      have := hs.bound fd hfd
      split_ifs <;> omega
  · rw [client_join_highest_fd]
    have := hs.limit
    split_ifs <;> omega
  · rw [hnext]; have := hs.counter; omega
  · intro fd hfd hL
    rw [client_join_active_fds s hh] at hfd
    rw [client_join_fd_to_id s hh, hnext]
    by_cases e : fd = h
    · subst e; simp only [set_at_same]; have := hs.counter; omega
    · rw [set_at_other _ _ e] at hfd ⊢
      have := hs.ids fd hfd hL
      omega
  · intro a b ha hb haL hbL hab
    rw [client_join_active_fds s hh] at ha hb
    rw [client_join_fd_to_id s hh]
    by_cases ea : a = h
    · have eb : b ≠ h := fun e => hab (ea.trans e.symm)
      rw [set_at_other _ _ eb] at hb ⊢
      rw [ea, set_at_same]
      have := hs.ids b hb hbL
      omega
    · rw [set_at_other _ _ ea] at ha ⊢
      by_cases eb : b = h
      · rw [eb, set_at_same]
        have := hs.ids a ha haL
        omega
      · rw [set_at_other _ _ eb] at hb ⊢
        exact hs.unique a b ha hb haL hbL hab

theorem inv_client_leave {L : Nat} {s : t_state} (hs : Inv L s) {h : Nat} (hL : h ≠ L)
    (hh : h < FD_SETSIZE) : Inv L (client_leave s h).1 := by
  rw [client_leave_small s hh]
  have hact : ∀ fd, set_at s.active_fds h false fd = true → s.active_fds fd = true := by
    intro fd hfd
    by_cases e : fd = h
    · simp [set_at, e] at hfd
    · simpa [set_at, e] using hfd
  refine ⟨hs.listen, ?_, fun fd hfd => hs.bound fd (hact fd hfd), hs.limit, hs.counter,
    fun fd hfd => hs.ids fd (hact fd hfd),
    fun a b ha hb => hs.unique a b (hact a ha) (hact b hb)⟩
  have : L ≠ h := fun e => hL e.symm
  simp [set_at, this, hs.listen_active]

theorem inv_set_buffer {L : Nat} {s : t_state} (hs : Inv L s) (t : Nat → Option CStr) :
    Inv L { s with fd_to_buffer := t } :=
  ⟨hs.listen, hs.listen_active, hs.bound, hs.limit, hs.counter, hs.ids, hs.unique⟩

theorem inv_active_small {L : Nat} {s : t_state} (hs : Inv L s) {fd : Nat}
    (hfd : s.active_fds fd = true) : fd < FD_SETSIZE :=
  lt_of_le_of_lt (hs.bound fd hfd) hs.limit

theorem inv_step {L : Nat} {s s1 : t_state} {r : Ready} {out : List Sent} (hs : Inv L s)
    (henv : EnvOk s r) (hstep : server_loop_body s r = some (s1, out)) : Inv L s1 := by
  rcases server_loop_body_cases hstep with ⟨hfd, hc, h1, _⟩ | ⟨_, _, h1, _⟩ |
    ⟨hfd, _, h1, _⟩ | ⟨_, _, h1, _⟩
  · obtain ⟨_, hsmall, hcount⟩ := henv.2.1 hfd hc
    rw [h1]; exact inv_client_join hs hsmall hcount
  · rw [h1]; exact hs
  · rw [h1]
    exact inv_client_leave hs (by rw [← hs.listen]; exact hfd) (inv_active_small hs henv.1)
  · rw [h1]; exact inv_set_buffer hs _

theorem reachable_inv {L : Nat} {s : t_state} (h : Reachable L s) : Inv L s := by
  induction h with
  | init hL => exact inv_main_state L hL
  | step r _ henv hstep ih => exact inv_step ih henv hstep

theorem run_inv {L : Nat} {s s1 : t_state} {evs : List Ready} {out : List Sent}
    (hrun : Run s evs s1 out) (hs : Inv L s) : Inv L s1 := by
  induction hrun with
  | nil => exact hs
  | cons henv hstep _ ih => exact ih (inv_step hs henv hstep)

theorem reachable_run {L : Nat} {s s1 : t_state} {evs : List Ready} {out : List Sent}
    (hrun : Run s evs s1 out) (hs : Reachable L s) : Reachable L s1 := by
  induction hrun with
  | nil => exact hs
  | cons henv hstep _ ih => exact ih (Reachable.step _ hs henv hstep)


/-! ## Broadcast -/

theorem range_sends_to (p : Nat → Bool) (msg : List Byte) (fd : Nat) (n : Nat) :
    ((((List.range n).filter p).map (fun k => ((k, msg) : Sent))).filter
        (fun e => e.1 = fd)) =
      if fd < n ∧ p fd = true then [(fd, msg)] else [] := by
  induction n with
  | zero => simp
  | succ n ih =>
    rw [List.range_succ, List.filter_append, List.map_append, List.filter_append, ih]
    by_cases hn : n = fd
    · subst hn
      by_cases hp : p n = true
      · simp [hp]
      · simp [hp]
    · have h1 : (fd < n + 1) = (fd < n) := by
        apply propext; constructor <;> intro h <;> omega
      by_cases hp : p n = true
      · simp [hp, hn, h1]
      · simp [hp, h1]

theorem broadcast_sends_to_any (s : t_state) (sender : Nat) (msg : List Byte) (fd : Nat) :
    (broadcast s sender msg).filter (fun e => e.1 = fd) =
      if fd ≤ s.highest_fd ∧ FD_ISSET fd s = true ∧ fd ≠ sender ∧ fd ≠ s.listen_fd then
        [(fd, msg)] else [] := by
  unfold broadcast
  rw [range_sends_to]
  by_cases hlt : fd ≤ s.highest_fd
  · have hlt2 : fd < s.highest_fd + 1 := by omega
    simp [hlt, hlt2, and_assoc]
  · have hlt2 : ¬ fd < s.highest_fd + 1 := by omega
    simp [hlt, hlt2]

theorem broadcast_sends_to (s : t_state) (hb : ∀ fd, s.active_fds fd = true → fd ≤ s.highest_fd)
    (hlimit : s.highest_fd < FD_SETSIZE) (sender : Nat) (msg : List Byte) (fd : Nat) :
    (broadcast s sender msg).filter (fun e => e.1 = fd) =
      if s.active_fds fd = true ∧ fd ≠ sender ∧ fd ≠ s.listen_fd then [(fd, msg)] else [] := by
  rw [broadcast_sends_to_any]
  by_cases hlt : fd ≤ s.highest_fd
  · rw [FD_ISSET_small (lt_of_le_of_lt hlt hlimit)]
    simp [hlt]
  · have ha : ¬ s.active_fds fd = true := fun h => hlt (hb fd h)
    simp [hlt, ha]

theorem reachable_two_clients : Reachable 3 two_clients :=
  Reachable.step (accept_report 3 5)
    (Reachable.step (accept_report 3 4) (Reachable.init (by decide)) (by decide) rfl)
    (by decide) rfl

/-- Within the limits of `fd_set`: in every state of `Reachable`,
`broadcast(sender, message)` calls `send` with `message` exactly once for each
handle of the active set other than `sender` and the listening handle, and for
no other handle. -/
theorem broadcast_recipients (L : Nat) (s : t_state) (hs : Reachable L s)
    (sender : Nat) (message : List Byte) (fd : Nat) :
    (broadcast s sender message).filter (fun e => e.1 = fd) =
      if s.active_fds fd = true ∧ fd ≠ sender ∧ fd ≠ s.listen_fd then [(fd, message)] else [] :=
  broadcast_sends_to s (reachable_inv hs).bound (reachable_inv hs).limit sender message fd

theorem broadcast_recipients_witness :
    Reachable 3 two_clients ∧
    (broadcast two_clients 4 (bytes "hi\n")).filter (fun e => e.1 = 5) =
      (if two_clients.active_fds 5 = true ∧ 5 ≠ 4 ∧ 5 ≠ two_clients.listen_fd
        then [(5, bytes "hi\n")] else []) ∧
    broadcast two_clients 4 (bytes "hi\n") = [(5, bytes "hi\n")] :=
  ⟨reachable_two_clients,
   broadcast_recipients 3 two_clients reachable_two_clients 4 (bytes "hi\n") 5, by decide⟩

/-! ## Identities -/

theorem run_counter {L : Nat} {s s1 : t_state} {evs : List Ready} {out : List Sent}
    (hrun : Run s evs s1 out) (hs : Inv L s) :
    s1.listen_fd = s.listen_fd ∧
      s1.next_client_id = s.next_client_id + (count_joins s.listen_fd evs : Nat) := by
  induction hrun with
  | nil => simp [count_joins]
  | @cons s s1 s2 o1 o2 r rs henv hstep _ ih =>
    obtain ⟨ihl, ihc⟩ := ih (inv_step hs henv hstep)
    have hsmall : r.fd ≠ s.listen_fd → r.fd < FD_SETSIZE := fun _ => inv_active_small hs henv.1
    rcases server_loop_body_cases hstep with ⟨hfd, hc, h1, _⟩ | ⟨hfd, hc, h1, _⟩ |
      ⟨hfd, _, h1, _⟩ | ⟨hfd, _, h1, _⟩
    · obtain ⟨_, hh, hcount⟩ := henv.2.1 hfd hc
      have hl : s1.listen_fd = s.listen_fd := by rw [h1, client_join_listen_fd]
      have hn : s1.next_client_id = s.next_client_id + 1 := by
        rw [h1, client_join_next_client_id s hh hs.counter hcount]
      refine ⟨by rw [ihl, hl], ?_⟩
      rw [ihc, hl, hn]
      simp only [count_joins, List.filter_cons, hfd, hc, decide_True, Bool.and_self, if_true,
        List.length_cons]
      push_cast; ring
    · have hc2 : ¬ 0 ≤ r.client_fd := by omega
      subst h1
      refine ⟨ihl, ?_⟩
      rw [ihc]
      simp [count_joins, List.filter_cons, hc2]
    · have hl : s1.listen_fd = s.listen_fd := by
        rw [h1, client_leave_small s (hsmall hfd)]
      have hn : s1.next_client_id = s.next_client_id := by
        rw [h1, client_leave_small s (hsmall hfd)]
      refine ⟨by rw [ihl, hl], ?_⟩
      rw [ihc, hl, hn]
      simp [count_joins, List.filter_cons, hfd]
    · have hl : s1.listen_fd = s.listen_fd := by rw [h1]
      have hn : s1.next_client_id = s.next_client_id := by rw [h1]
      refine ⟨by rw [ihl, hl], ?_⟩
      rw [ihc, hl, hn]
      simp [count_joins, List.filter_cons, hfd]

/-- Within the limits of `fd_set` and `int`: after any sequence of reports
from the initial state in which every handle is below `FD_SETSIZE` and the
counter below `INT_MAX`, a successful `accept` of such a handle makes
`client_join` store, for the joined handle, the number of successful joins so
far minus one: the N-th join gets identity N-1, whatever disconnects came in
between and whatever handle number is used. -/
theorem identity_of_nth_join (L : Nat) (hL : L < FD_SETSIZE) (evs : List Ready) (s : t_state)
    (out : List Sent) (r : Ready) (hrun : Run (main_state L) evs s out) (hfd : r.fd = L)
    (hacc : 0 ≤ r.client_fd) (hsmall : r.client_fd.toNat < FD_SETSIZE) :
    server_loop_body s r = some (client_join s r.client_fd.toNat) ∧
      (client_join s r.client_fd.toNat).1.fd_to_id r.client_fd.toNat =
        (count_joins L (evs ++ [r]) : Nat) - 1 := by
  obtain ⟨hl, hn⟩ := run_counter hrun (inv_main_state L hL)
  have hm : (main_state L).listen_fd = L ∧ (main_state L).next_client_id = 0 := by
    rw [main_state_small hL]; exact ⟨rfl, rfl⟩
  rw [hm.1] at hl hn
  rw [hm.2] at hn
  have hl2 : s.listen_fd = L := hl
  refine ⟨server_loop_body_accept (by rw [hl2, hfd]) hacc, ?_⟩
  rw [client_join_fd_to_id s hsmall, set_at_same, hn]
  simp only [count_joins, List.filter_append, List.length_append, List.filter_cons,
    hfd, hacc, decide_True, Bool.and_self, if_true, List.filter_nil, List.length_cons,
    List.length_nil]
  push_cast; ring

theorem identity_of_nth_join_witness :
    ∃ s out, Run (main_state 3) [accept_report 3 4, accept_report 3 5, close_report 4 0] s out ∧
      (accept_report 3 4).fd = 3 ∧ 0 ≤ (accept_report 3 4).client_fd ∧
      server_loop_body s (accept_report 3 4) =
        some (client_join s (accept_report 3 4).client_fd.toNat) ∧
      (client_join s (accept_report 3 4).client_fd.toNat).1.fd_to_id
          (accept_report 3 4).client_fd.toNat =
        (count_joins 3 ([accept_report 3 4, accept_report 3 5, close_report 4 0] ++
          [accept_report 3 4]) : Nat) - 1 ∧
      (count_joins 3 ([accept_report 3 4, accept_report 3 5, close_report 4 0] ++
          [accept_report 3 4]) : Nat) = 3 := by
  have hrun : Run (main_state 3) [accept_report 3 4, accept_report 3 5, close_report 4 0] _ _ :=
    Run.cons (by decide) rfl (Run.cons (by decide) rfl (Run.cons (by decide) rfl (Run.nil _)))
  have h := identity_of_nth_join 3 (by decide) _ _ _ (accept_report 3 4) hrun rfl (by decide)
    (by decide)
  exact ⟨_, _, hrun, rfl, by decide, h.1, h.2, by decide⟩


/-! ## Arrival and departure notices -/

theorem fmt_d_natCast (n : Nat) : fmt_d (n : Int) = bytes (Nat.repr n) := rfl

/-- Within the limits of `fd_set` and `int`: in a state of `Reachable` whose
counter is `n`, joining a newly accepted handle `h` below `FD_SETSIZE` calls
`send` with the text "server: client n just arrived\n" exactly once for every
client that was already active, and not for `h` or the listening handle. -/
theorem arrival_notice (L : Nat) (s : t_state) (hs : Reachable L s) (n : Nat)
    (hn : s.next_client_id = n) (h : Nat) (hnew : s.active_fds h = false)
    (hh : h < FD_SETSIZE) (hc : s.next_client_id < INT_MAX) (r : Nat) :
    (client_join s h).2.filter (fun e => e.1 = r) =
      if s.active_fds r = true ∧ r ≠ L then
        [(r, bytes "server: client " ++ bytes (Nat.repr n) ++ bytes " just arrived\n")]
      else [] := by
  have hinv := reachable_inv hs
  rw [client_join_sent s hh, broadcast_sends_to _ (inv_client_join hinv hh hc).bound
      (inv_client_join hinv hh hc).limit,
    client_join_active_fds s hh, client_join_listen_fd, hinv.listen, hn, fmt_d_natCast]
  by_cases e : r = h
  · subst e
    simp [hnew]
  · simp [set_at_other _ _ e, e]

theorem arrival_notice_witness :
    Reachable 3 two_clients ∧ two_clients.next_client_id = (2 : Nat) ∧
    two_clients.active_fds 6 = false ∧
    ((client_join two_clients 6).2.filter (fun e => e.1 = 4) =
      if two_clients.active_fds 4 = true ∧ 4 ≠ 3 then
        [(4, bytes "server: client " ++ bytes (Nat.repr 2) ++ bytes " just arrived\n")]
      else []) ∧
    (client_join two_clients 6).2 =
      [(4, bytes "server: client 2 just arrived\n"), (5, bytes "server: client 2 just arrived\n")] :=
  ⟨reachable_two_clients, rfl, rfl,
   arrival_notice 3 two_clients reachable_two_clients 2 rfl 6 rfl (by decide) (by decide) 4,
   by decide⟩

theorem run_keeps_client {L : Nat} {s s1 : t_state} {evs : List Ready} {out : List Sent}
    (hrun : Run s evs s1 out) (hs : Inv L s) (h : Nat) (hact : s.active_fds h = true)
    (hstay : ∀ r ∈ evs, r.fd = h → 0 < r.recv_ret) :
    s1.active_fds h = true ∧ s1.fd_to_id h = s.fd_to_id h := by
  induction hrun with
  | nil => exact ⟨hact, rfl⟩
  | @cons s s1 s2 o1 o2 r rs henv hstep _ ih =>
    have hmid : s1.active_fds h = true ∧ s1.fd_to_id h = s.fd_to_id h := by
      rcases server_loop_body_cases hstep with ⟨hfd, hc, h1, _⟩ | ⟨_, _, h1, _⟩ |
        ⟨hfd, hret, h1, _⟩ | ⟨_, _, h1, _⟩
      · obtain ⟨hfree, hh, _⟩ := henv.2.1 hfd hc
        have hne : h ≠ r.client_fd.toNat := by
          intro e
          rw [← e, hact] at hfree
          exact Bool.noConfusion hfree
        rw [h1, client_join_active_fds s hh, client_join_fd_to_id s hh, set_at_other _ _ hne,
          set_at_other _ _ hne]
        exact ⟨hact, rfl⟩
      · rw [h1]; exact ⟨hact, rfl⟩
      · have hne : h ≠ r.fd := by
          intro e
          have := hstay r (List.mem_cons_self _ _) e.symm
          omega
        rw [h1, client_leave_small s (inv_active_small hs henv.1)]
        refine ⟨?_, rfl⟩
        show set_at s.active_fds r.fd false h = true
        rw [set_at_other _ _ hne]
        exact hact
      · rw [h1]; exact ⟨hact, rfl⟩
    obtain ⟨ha, hi⟩ := ih (inv_step hs henv hstep) hmid.1
      (fun r hr => hstay r (List.mem_cons_of_mem _ hr))
    exact ⟨ha, by rw [hi, hmid.2]⟩

/-- Within the limits of `fd_set` and `int`: a handle `h` below `FD_SETSIZE`
joined in a state of `Reachable` with counter `n` gets identity `n`; after any
further reports that do not disconnect `h` (events on other handles, data from
`h` or none at all), `h` is still active, a `recv` result of zero or less runs
`client_leave(h)`, which calls `send` with "server: client n just left\n"
exactly once for every remaining active client and not for `h` or the
listening handle, and `h` leaves the active set. -/
theorem departure_notice (L : Nat) (s0 : t_state) (hs0 : Reachable L s0) (n : Nat)
    (hn : s0.next_client_id = n) (h : Nat) (hnew : s0.active_fds h = false)
    (hh : h < FD_SETSIZE) (hc : s0.next_client_id < INT_MAX)
    (evs : List Ready) (s : t_state) (out : List Sent)
    (hrun : Run (client_join s0 h).1 evs s out)
    (hstay : ∀ r ∈ evs, r.fd = h → 0 < r.recv_ret) (ret : Int) (hret : ret ≤ 0) (r : Nat) :
    (client_join s0 h).1.fd_to_id h = n ∧
    s.active_fds h = true ∧
    server_loop_body s (close_report h ret) = some (client_leave s h) ∧
    ((client_leave s h).2.filter (fun e => e.1 = r) =
      if s.active_fds r = true ∧ r ≠ h ∧ r ≠ L then
        [(r, bytes "server: client " ++ bytes (Nat.repr n) ++ bytes " just left\n")]
      else []) ∧
    (client_leave s h).1.active_fds h = false := by
  have hinv0 := reachable_inv hs0
  have hinv1 : Inv L (client_join s0 h).1 := inv_client_join hinv0 hh hc
  have hinv := run_inv hrun hinv1
  have hL : h ≠ L := by
    intro e
    have := hinv0.listen_active
    rw [← e, hnew] at this
    exact Bool.noConfusion this
  have hid0 : (client_join s0 h).1.fd_to_id h = n := by
    rw [client_join_fd_to_id s0 hh, set_at_same, hn]
  have hact1 : (client_join s0 h).1.active_fds h = true := by
    rw [client_join_active_fds s0 hh, set_at_same]
  obtain ⟨hact, hid⟩ := run_keeps_client hrun hinv1 h hact1 hstay
  refine ⟨hid0, hact, ?_, ?_, by rw [client_leave_small s hh]; simp⟩
  · exact server_loop_body_leave (s := s) (r := close_report h ret)
      (by rw [hinv.listen]; exact hL) hret
  · have hsent : (client_leave s h).2 = broadcast s h
        (bytes "server: client " ++ fmt_d (s.fd_to_id h) ++ bytes " just left\n") := rfl
    rw [hsent, broadcast_sends_to _ hinv.bound hinv.limit, hinv.listen, hid, hid0,
      fmt_d_natCast]

theorem departure_notice_witness :
    ∃ s out, Reachable 3 (client_join (main_state 3) 4).1 ∧
      (client_join (main_state 3) 4).1.next_client_id = (1 : Nat) ∧
      (client_join (main_state 3) 4).1.active_fds 5 = false ∧
      Run (client_join (client_join (main_state 3) 4).1 5).1
        [recv_report 4 (bytes "x\n"), accept_report 3 6, close_report 4 0] s out ∧
      (client_join (client_join (main_state 3) 4).1 5).1.fd_to_id 5 = (1 : Nat) ∧
      s.active_fds 5 = true ∧
      server_loop_body s (close_report 5 (-1)) = some (client_leave s 5) ∧
      ((client_leave s 5).2.filter (fun e => e.1 = 6) =
        if s.active_fds 6 = true ∧ 6 ≠ 5 ∧ 6 ≠ 3 then
          [(6, bytes "server: client " ++ bytes (Nat.repr 1) ++ bytes " just left\n")]
        else []) ∧
      (client_leave s 5).1.active_fds 5 = false ∧
      (client_leave s 5).2 = [(6, bytes "server: client 1 just left\n")] := by
  have hreach : Reachable 3 (client_join (main_state 3) 4).1 :=
    Reachable.step (accept_report 3 4) (Reachable.init (by decide)) (by decide) rfl
  have hrun : Run (client_join (client_join (main_state 3) 4).1 5).1
      [recv_report 4 (bytes "x\n"), accept_report 3 6, close_report 4 0] _ _ :=
    Run.cons (by decide) rfl (Run.cons (by decide) rfl (Run.cons (by decide) rfl (Run.nil _)))
  have h := departure_notice 3 _ hreach 1 rfl 5 rfl (by decide) (by decide) _ _ _ hrun
    (by decide) (-1) (by decide) 6
  exact ⟨_, _, hreach, rfl, rfl, hrun, h.1, h.2.1, h.2.2.1, h.2.2.2.1, h.2.2.2.2, by decide⟩

/-- Within the limits of `fd_set` and `int`: in every state of `Reachable` two
distinct active client handles have distinct identities, every active
client's identity is at least 0 and below the counter, the counter never
decreases along later reports, and an identity given at a join is smaller than
the identity of any later join, also one on the same handle number. -/
theorem identity_unique (L : Nat) (s : t_state) (hs : Reachable L s) :
    (∀ a b, s.active_fds a = true → s.active_fds b = true → a ≠ L → b ≠ L → a ≠ b →
      s.fd_to_id a ≠ s.fd_to_id b) ∧
    (∀ a, s.active_fds a = true → a ≠ L →
      0 ≤ s.fd_to_id a ∧ s.fd_to_id a < s.next_client_id) ∧
    (∀ evs s1 out, Run s evs s1 out → s.next_client_id ≤ s1.next_client_id) ∧
    (∀ h evs s1 out h1, h < FD_SETSIZE → s.next_client_id < INT_MAX → h1 < FD_SETSIZE →
      Run (client_join s h).1 evs s1 out →
      (client_join s h).1.fd_to_id h < (client_join s1 h1).1.fd_to_id h1) := by
  have hinv := reachable_inv hs
  refine ⟨hinv.unique, hinv.ids, ?_, ?_⟩
  · intro evs s1 out hrun
    have := (run_counter hrun hinv).2
    omega
  · intro h evs s1 out h1 hh hc hh1 hrun
    have := (run_counter hrun (inv_client_join hinv hh hc)).2
    rw [client_join_next_client_id s hh hinv.counter hc] at this
    rw [client_join_fd_to_id s hh, client_join_fd_to_id s1 hh1, set_at_same, set_at_same]
    omega

theorem identity_unique_witness :
    Reachable 3 two_clients ∧
    two_clients.fd_to_id 4 ≠ two_clients.fd_to_id 5 ∧
    (0 ≤ two_clients.fd_to_id 5 ∧ two_clients.fd_to_id 5 < two_clients.next_client_id) ∧
    (∃ s1 out, Run (client_join two_clients 6).1 [close_report 6 0, close_report 4 (-1)] s1 out ∧
      two_clients.next_client_id ≤ s1.next_client_id ∧
      (client_join two_clients 6).1.fd_to_id 6 < (client_join s1 6).1.fd_to_id 6) := by
  have h := identity_unique 3 two_clients reachable_two_clients
  have hrun : Run (client_join two_clients 6).1 [close_report 6 0, close_report 4 (-1)] _ _ :=
    Run.cons (by decide) rfl (Run.cons (by decide) rfl (Run.nil _))
  have hrun0 : Run two_clients [accept_report 3 6, close_report 6 0, close_report 4 (-1)] _ _ :=
    Run.cons (by decide) rfl hrun
  exact ⟨reachable_two_clients, h.1 4 5 rfl rfl (by decide) (by decide) (by decide),
    h.2.1 5 rfl (by decide), _, _, hrun, h.2.2.1 _ _ _ hrun0,
    h.2.2.2 6 _ _ _ 6 (by decide) (by decide) (by decide) hrun⟩

/-! ## Disconnects -/

/-- Within the limits of `fd_set`: for a handle `h` below `FD_SETSIZE` other
than the listening one, a `recv` result of zero and any negative result are
handled in the same way: the turn is exactly `client_leave(h)`.  It leaves the
counter, the scan limit, the identity table, the buffer of every other handle
and the membership of every other handle as they were. -/
theorem disconnect_uniform (s : t_state) (h : Nat) (hL : h ≠ s.listen_fd)
    (hh : h < FD_SETSIZE) (c1 c2 : Int) (n : Int) (hn : n < 0) (buf1 buf2 : List Byte) :
    server_loop_body s { fd := h, client_fd := c1, recv_ret := 0, recv_buf := buf1 } =
      some (client_leave s h) ∧
    server_loop_body s { fd := h, client_fd := c2, recv_ret := n, recv_buf := buf2 } =
      some (client_leave s h) ∧
    (client_leave s h).1.next_client_id = s.next_client_id ∧
    (client_leave s h).1.listen_fd = s.listen_fd ∧
    (client_leave s h).1.highest_fd = s.highest_fd ∧
    (client_leave s h).1.fd_to_id = s.fd_to_id ∧
    (∀ k, k ≠ h → (client_leave s h).1.fd_to_buffer k = s.fd_to_buffer k) ∧
    (∀ k, k ≠ h → (client_leave s h).1.active_fds k = s.active_fds k) := by
  rw [client_leave_small s hh]
  rw [← client_leave_small s hh]
  refine ⟨?_, ?_, ?_⟩
  · exact server_loop_body_leave
      (r := { fd := h, client_fd := c1, recv_ret := 0, recv_buf := buf1 }) hL (le_refl _)
  · exact server_loop_body_leave
      (r := { fd := h, client_fd := c2, recv_ret := n, recv_buf := buf2 }) hL (by simpa using hn.le)
  · rw [client_leave_small s hh]
    refine ⟨rfl, rfl, rfl, rfl, fun _ _ => rfl, ?_⟩
    intro k hk
    show set_at s.active_fds h false k = s.active_fds k
    exact set_at_other _ _ hk

theorem disconnect_uniform_witness :
    (4 ≠ two_clients.listen_fd ∧ (-1 : Int) < 0) ∧
    server_loop_body two_clients { fd := 4, client_fd := -1, recv_ret := 0, recv_buf := [] } =
      some (client_leave two_clients 4) ∧
    server_loop_body two_clients
        { fd := 4, client_fd := -1, recv_ret := -1, recv_buf := bytes "old" } =
      some (client_leave two_clients 4) ∧
    (client_leave two_clients 4).2 = [(5, bytes "server: client 0 just left\n")] ∧
    (client_leave two_clients 4).1.active_fds 5 = two_clients.active_fds 5 := by
  have h := disconnect_uniform two_clients 4 (by decide) (by decide) (-1) (-1) (-1)
    (by decide) [] (bytes "old")
  exact ⟨⟨by decide, by decide⟩, h.1, h.2.1, by decide, h.2.2.2.2.2.2.2 5 (by decide)⟩


/-! ## Relay of an inbound read -/

theorem relay_sends_to (s : t_state) (hb : ∀ fd, s.active_fds fd = true → fd ≤ s.highest_fd)
    (hlimit : s.highest_fd < FD_SETSIZE) (h : Nat) (lines : List CStr) (r : Nat) :
    (relay s h lines).filter (fun e => e.1 = r) =
      if s.active_fds r = true ∧ r ≠ h ∧ r ≠ s.listen_fd then
        lines.flatMap (fun l => [((r, relay_head (s.fd_to_id h)) : Sent), (r, l)])
      else [] := by
  induction lines with
  | nil => simp [relay]
  | cons l ls ih =>
    have hcons : relay s h (l :: ls) =
        broadcast s h (relay_head (s.fd_to_id h)) ++ broadcast s h l ++ relay s h ls := by
      simp [relay, List.flatMap_cons]
    rw [hcons, List.filter_append, List.filter_append, ih, broadcast_sends_to s hb hlimit,
      broadcast_sends_to s hb hlimit]
    by_cases hc : s.active_fds r = true ∧ r ≠ h ∧ r ≠ s.listen_fd
    · simp only [if_pos hc, List.flatMap_cons]
      rfl
    · simp only [if_neg hc, List.append_nil]

theorem pairs_payload (r : Nat) (pre : List Byte) (lines : List CStr) :
    ((lines.flatMap (fun l => [((r, pre) : Sent), (r, l)])).map Prod.snd).flatten =
      (lines.map (fun l => pre ++ l)).flatten := by
  induction lines with
  | nil => rfl
  | cons l ls ih =>
    simp only [List.flatMap_cons, List.map_append, List.flatten_append, List.map_cons,
      List.flatten_cons, ih]
    simp

theorem server_loop_body_recv_report (s : t_state) (h : Nat) (hL : h ≠ s.listen_fd)
    (d : List Byte) (hd : d ≠ []) :
    server_loop_body s (recv_report h d) = some
      ({ s with fd_to_buffer := (set_at s.fd_to_buffer h
          (some (spec_rest (buf_bytes (s.fd_to_buffer h) ++ c_str d)))) },
       relay s h (spec_lines (buf_bytes (s.fd_to_buffer h) ++ c_str d))) := by
  have hpos : 0 < (recv_report h d).recv_ret := by
    have : 0 < d.length := List.length_pos.mpr hd
    simp only [recv_report]; omega
  have hstep := server_loop_body_data (s := s) (r := recv_report h d) hL hpos
  have htake : (recv_report h d).recv_buf.take (recv_report h d).recv_ret.toNat = d := by
    simp [recv_report]
  rw [htake] at hstep
  exact hstep

theorem find_none_of_quiet {sigpipe : Nat → Bool} (hsig : ∀ i, sigpipe i = false) (n : Nat) :
    (List.range n).find? sigpipe = none := by
  rw [List.find?_eq_none]
  intro x _
  simp [hsig x]

theorem server_loop_turn_quiet {sigpipe : Nat → Bool} (hsig : ∀ i, sigpipe i = false)
    {s s1 : t_state} {r : Ready} {out : List Sent}
    (hstep : server_loop_body s r = some (s1, out)) :
    server_loop_turn sigpipe s r = some (some s1, out) := by
  simp only [server_loop_turn, hstep, find_none_of_quiet hsig]

theorem relay_of_read_c_str (L : Nat) (s : t_state) (hs : Reachable L s) (h : Nat)
    (hL : h ≠ L) (d : List Byte) (hd : d ≠ []) (r : Nat) :
    server_loop_body s (recv_report h d) = some
      ({ s with fd_to_buffer := (set_at s.fd_to_buffer h
          (some (spec_rest (buf_bytes (s.fd_to_buffer h) ++ c_str d)))) },
       relay s h (spec_lines (buf_bytes (s.fd_to_buffer h) ++ c_str d))) ∧
    (relay s h (spec_lines (buf_bytes (s.fd_to_buffer h) ++ c_str d))).filter
        (fun e => e.1 = r) =
      if s.active_fds r = true ∧ r ≠ h ∧ r ≠ L then
        (spec_lines (buf_bytes (s.fd_to_buffer h) ++ c_str d)).flatMap
          (fun l => [((r, relay_head (s.fd_to_id h)) : Sent), (r, l)])
      else [] := by
  have hinv := reachable_inv hs
  refine ⟨server_loop_body_recv_report s h (by rw [hinv.listen]; exact hL) d hd, ?_⟩
  rw [relay_sends_to s hinv.bound hinv.limit, hinv.listen]

/-- C4 (as amended): relay output of one inbound read.  In a state reached
with every accepted handle below `FD_SETSIZE` and the counter below `INT_MAX`
(the states of `Reachable`), for an active client `h` with identity N and
pending bytes `b`, and a received chunk `d` of 1 to 1000 bytes without zero
byte, when no `send` of the turn ends the process, handling the read calls
`send` for each other active client, for every complete line of `b` followed
by `d` in order, first with "client N: " and then with the line (with its
'\n'); the stream handed to `send` for such a client is the concatenation of
these; nothing is sent to `h`, to the listening handle or to a handle outside
the active set. -/
theorem relay_of_read (L : Nat) (s : t_state) (hs : Reachable L s) (h : Nat)
    (_hact : s.active_fds h = true) (hL : h ≠ L) (d : List Byte) (hd : d ≠ [])
    (_hlen : d.length ≤ 1000) (hz : (0 : Byte) ∉ d) (sigpipe : Nat → Bool)
    (hsig : ∀ i, sigpipe i = false) (r : Nat) :
    ∃ s1 out, server_loop_turn sigpipe s (recv_report h d) = some (some s1, out) ∧
      (out.filter (fun e => e.1 = r) =
        if s.active_fds r = true ∧ r ≠ h ∧ r ≠ L then
          (spec_lines (buf_bytes (s.fd_to_buffer h) ++ d)).flatMap
            (fun l => [((r, relay_head (s.fd_to_id h)) : Sent), (r, l)])
        else []) ∧
      (received r out =
        if s.active_fds r = true ∧ r ≠ h ∧ r ≠ L then
          ((spec_lines (buf_bytes (s.fd_to_buffer h) ++ d)).map
            (fun l => relay_head (s.fd_to_id h) ++ l)).flatten
        else []) := by
  obtain ⟨h1, h2⟩ := relay_of_read_c_str L s hs h hL d hd r
  rw [c_str_of_no_zero hz] at h1 h2
  refine ⟨_, _, server_loop_turn_quiet hsig h1, h2, ?_⟩
  by_cases hc : s.active_fds r = true ∧ r ≠ h ∧ r ≠ L
  · rw [if_pos hc] at h2 ⊢
    unfold received
    rw [h2, pairs_payload]
  · rw [if_neg hc] at h2 ⊢
    unfold received
    rw [h2]
    rfl

theorem relay_of_read_witness :
    (Reachable 3 two_clients ∧ two_clients.active_fds 4 = true ∧ 4 ≠ 3 ∧
      bytes "x\ny\nz" ≠ [] ∧ (bytes "x\ny\nz").length ≤ 1000 ∧
      (0 : Byte) ∉ bytes "x\ny\nz" ∧ ∀ i : Nat, (fun _ => false) i = false) ∧
    ∃ s1 out, server_loop_turn (fun _ => false) two_clients
        (recv_report 4 (bytes "x\ny\nz")) = some (some s1, out) ∧
      (out.filter (fun e => e.1 = 5) =
        if two_clients.active_fds 5 = true ∧ 5 ≠ 4 ∧ 5 ≠ 3 then
          (spec_lines (buf_bytes (two_clients.fd_to_buffer 4) ++ bytes "x\ny\nz")).flatMap
            (fun l => [((5, relay_head (two_clients.fd_to_id 4)) : Sent), (5, l)])
        else []) ∧
      (received 5 out =
        if two_clients.active_fds 5 = true ∧ 5 ≠ 4 ∧ 5 ≠ 3 then
          ((spec_lines (buf_bytes (two_clients.fd_to_buffer 4) ++ bytes "x\ny\nz")).map
            (fun l => relay_head (two_clients.fd_to_id 4) ++ l)).flatten
        else []) :=
  ⟨⟨reachable_two_clients, rfl, by decide, by decide, by decide, by decide, fun _ => rfl⟩,
   relay_of_read 3 two_clients reachable_two_clients 4 rfl (by decide) (bytes "x\ny\nz")
    (by decide) (by decide) (by decide) (fun _ => false) (fun _ => rfl) 5⟩

/-- C4 as stated fails on a chunk with a zero byte: for the chunk `a`, NUL,
'\n' received from client 0 the claim prescribes the relay of one line to
client handle 5, but the server sends nothing. -/
theorem relay_zero_byte_counterexample :
    ((server_loop_body two_clients (recv_report 4 [97, 0, 10])).map Prod.snd = some [] ∧
      ((spec_lines (buf_bytes (two_clients.fd_to_buffer 4) ++ [97, 0, 10])).map
          (fun l => relay_head (two_clients.fd_to_id 4) ++ l)).flatten =
        bytes "client 0: " ++ [97, 0, 10]) ∧
    ¬ (∀ (L : Nat) (s : t_state) (h : Nat) (d : List Byte) (r : Nat),
        Reachable L s → s.active_fds h = true → h ≠ L → d ≠ [] → d.length ≤ 1000 →
        ∃ s1 out, server_loop_body s (recv_report h d) = some (s1, out) ∧
          received r out =
            if s.active_fds r = true ∧ r ≠ h ∧ r ≠ L then
              ((spec_lines (buf_bytes (s.fd_to_buffer h) ++ d)).map
                (fun l => relay_head (s.fd_to_id h) ++ l)).flatten
            else []) := by
  have hcode : (server_loop_body two_clients (recv_report 4 [97, 0, 10])).map Prod.snd
      = some [] := by decide
  refine ⟨⟨hcode, by decide⟩, fun H => ?_⟩
  obtain ⟨s1, out, h1, h2⟩ := H 3 two_clients 4 [97, 0, 10] 5 reachable_two_clients rfl
    (by decide) (by decide) (by decide)
  rw [h1, Option.map_some'] at hcode
  have hout : out = [] := Option.some.inj hcode
  rw [hout] at h2
  have hne : ¬ (received 5 [] =
      if two_clients.active_fds 5 = true ∧ 5 ≠ 4 ∧ 5 ≠ 3 then
        ((spec_lines (buf_bytes (two_clients.fd_to_buffer 4) ++ [97, 0, 10])).map
          (fun l => relay_head (two_clients.fd_to_id 4) ++ l)).flatten
      else []) := by decide
  exact hne h2

/-! ## Partial data -/

/-- C9 (as amended): partial data is retained and never broadcast.  For a
client handle `h` with pending bytes `b` and a received chunk `d` without zero
byte such that `b` followed by `d` has no '\n', handling the read sends nothing
and leaves `b` followed by `d` in the buffer of `h`; if `h` then disconnects,
every send made carries the departure notice and nothing else. -/
theorem pending_data_retained (s : t_state) (h : Nat) (hL : h ≠ s.listen_fd)
    (d : List Byte) (hd : d ≠ []) (hz : (0 : Byte) ∉ d)
    (hnl : NL ∉ buf_bytes (s.fd_to_buffer h) ++ d) (ret : Int) (hret : ret ≤ 0) :
    ∃ s1, server_loop_body s (recv_report h d) = some (s1, []) ∧
      s1.fd_to_buffer h = some (buf_bytes (s.fd_to_buffer h) ++ d) ∧
      server_loop_body s1 (close_report h ret) = some (client_leave s1 h) ∧
      ∀ e ∈ (client_leave s1 h).2,
        e.2 = bytes "server: client " ++ fmt_d (s.fd_to_id h) ++ bytes " just left\n" := by
  have hstep := server_loop_body_recv_report s h hL d hd
  rw [c_str_of_no_zero hz, spec_lines_no_nl hnl, spec_rest_no_nl hnl] at hstep
  refine ⟨_, hstep, ?_, ?_, ?_⟩
  · show set_at s.fd_to_buffer h _ h = _
    rw [set_at_same]
  · exact server_loop_body_leave (r := close_report h ret) hL hret
  · intro e he
    simp only [client_leave, broadcast, List.mem_map] at he
    obtain ⟨k, _, hk⟩ := he
    rw [← hk]

theorem pending_data_retained_witness :
    (4 ≠ two_clients.listen_fd ∧ bytes "ab" ≠ [] ∧ (0 : Byte) ∉ bytes "ab" ∧
      NL ∉ buf_bytes (two_clients.fd_to_buffer 4) ++ bytes "ab" ∧ (0 : Int) ≤ 0) ∧
    ∃ s1, server_loop_body two_clients (recv_report 4 (bytes "ab")) = some (s1, []) ∧
      s1.fd_to_buffer 4 = some (buf_bytes (two_clients.fd_to_buffer 4) ++ bytes "ab") ∧
      server_loop_body s1 (close_report 4 0) = some (client_leave s1 4) ∧
      ∀ e ∈ (client_leave s1 4).2,
        e.2 = bytes "server: client " ++ fmt_d (two_clients.fd_to_id 4) ++
          bytes " just left\n" :=
  ⟨⟨by decide, by decide, by decide, by decide, by decide⟩,
   pending_data_retained two_clients 4 (by decide) (bytes "ab") (by decide) (by decide)
    (by decide) 0 (by decide)⟩

/-- C9 as stated fails on a chunk with a zero byte: after the chunk `a`, NUL
(no '\n') the buffer of the handle holds only `a`, not the two bytes
received. -/
theorem pending_zero_byte_counterexample :
    ((server_loop_body two_clients (recv_report 4 [97, 0])).map
        (fun p => p.1.fd_to_buffer 4) = some (some [97]) ∧
      NL ∉ buf_bytes (two_clients.fd_to_buffer 4) ++ [97, 0]) ∧
    ¬ (∀ (s : t_state) (h : Nat) (d : List Byte),
        s.active_fds h = true → h ≠ s.listen_fd → d ≠ [] → d.length ≤ 1000 →
        NL ∉ buf_bytes (s.fd_to_buffer h) ++ d →
        ∃ s1 out, server_loop_body s (recv_report h d) = some (s1, out) ∧
          buf_bytes (s1.fd_to_buffer h) = buf_bytes (s.fd_to_buffer h) ++ d) := by
  have hcode : (server_loop_body two_clients (recv_report 4 [97, 0])).map
      (fun p => p.1.fd_to_buffer 4) = some (some [97]) := by decide
  refine ⟨⟨hcode, by decide⟩, fun H => ?_⟩
  obtain ⟨s1, out, h1, h2⟩ := H two_clients 4 [97, 0] rfl (by decide) (by decide) (by decide)
    (by decide)
  rw [h1, Option.map_some'] at hcode
  have hbuf : s1.fd_to_buffer 4 = some [97] := Option.some.inj hcode
  rw [hbuf] at h2
  have hne : ¬ (buf_bytes (some [97]) = buf_bytes (two_clients.fd_to_buffer 4) ++ [97, 0]) := by
    decide
  exact hne h2


/-! ## Empty lines -/

theorem spec_lines_nl_cons (post : List Byte) :
    spec_lines (NL :: post) = [NL] :: spec_lines post := by
  have h := spec_lines_first (p := []) (by simp) post
  simpa using h

theorem spec_rest_after_nl {pre : List Byte} (hpre : pre = [] ∨ ∃ q, pre = q ++ [NL]) :
    spec_rest pre = [] := by
  rcases hpre with e | ⟨q, e⟩
  · subst e; exact spec_rest_no_nl (by simp)
  · subst e
    rw [spec_rest_append, spec_rest_first (spec_rest_nl_free q)]
    exact spec_rest_no_nl (by simp)

theorem relay_append (s : t_state) (h : Nat) (l1 l2 : List CStr) :
    relay s h (l1 ++ l2) = relay s h l1 ++ relay s h l2 := by
  simp [relay, List.flatMap_append]

/-- Within the limits of `fd_set` and `int`: when the accumulated input of a
sender `h` with identity N has a '\n' at the start of the buffer or right
after another '\n', `extract_message` yields for it the line made of the
single byte '\n', this line appears among the extracted lines at that place,
and `client_message` calls `send` for it as for any other line: for every
other active client with "client N: " and then with the byte '\n'. -/
theorem empty_line_relayed (L : Nat) (s : t_state) (hs : Reachable L s) (h : Nat)
    (hL : h ≠ L) (d : List Byte) (hd : d ≠ []) (pre post : List Byte)
    (hacc : buf_bytes (s.fd_to_buffer h) ++ c_str d = pre ++ NL :: post)
    (hpre : pre = [] ∨ ∃ q, pre = q ++ [NL]) (r : Nat) :
    extract_message (some (NL :: post)) = { ret := 1, buf := some post, msg := some [NL] } ∧
    ∃ res, client_data s h d.length d = some res ∧
      server_loop_body s (recv_report h d) = some (res.state, res.sent) ∧
      res.lines = spec_lines pre ++ [NL] :: spec_lines post ∧
      res.sent = relay s h (spec_lines pre) ++ relay s h [[NL]] ++ relay s h (spec_lines post) ∧
      (relay s h [[NL]]).filter (fun e => e.1 = r) =
        if s.active_fds r = true ∧ r ≠ h ∧ r ≠ L then
          [((r, relay_head (s.fd_to_id h)) : Sent), (r, [NL])]
        else [] := by
  have hinv := reachable_inv hs
  have hL2 : h ≠ s.listen_fd := by rw [hinv.listen]; exact hL
  have hlines : spec_lines (pre ++ NL :: post) = spec_lines pre ++ [NL] :: spec_lines post := by
    rw [spec_lines_append, spec_rest_after_nl hpre, List.nil_append, spec_lines_nl_cons]
  have hdata := client_data_spec s h d.length d
  rw [List.take_length, hacc] at hdata
  have hbody := server_loop_body_recv_report s h hL2 d hd
  rw [hacc] at hbody
  refine ⟨?_, _, hdata, hbody, hlines, ?_, ?_⟩
  · have := extract_message_first (p := []) (by simp) post
    simpa using this
  · show relay s h (spec_lines (pre ++ NL :: post)) = _
    rw [hlines, relay_append, List.append_assoc]
    congr 1
    exact relay_append s h [[NL]] (spec_lines post)
  · rw [relay_sends_to s hinv.bound hinv.limit, hinv.listen]
    rfl

theorem empty_line_relayed_witness :
    (Reachable 3 two_clients ∧ 4 ≠ 3 ∧ bytes "\n\n" ≠ [] ∧
      buf_bytes (two_clients.fd_to_buffer 4) ++ c_str (bytes "\n\n") = [NL] ++ NL :: [] ∧
      ([NL] = [] ∨ ∃ q, [NL] = q ++ [NL])) ∧
    (extract_message (some (NL :: [])) = { ret := 1, buf := some [], msg := some [NL] } ∧
    ∃ res, client_data two_clients 4 (bytes "\n\n").length (bytes "\n\n") = some res ∧
      server_loop_body two_clients (recv_report 4 (bytes "\n\n")) = some (res.state, res.sent) ∧
      res.lines = spec_lines [NL] ++ [NL] :: spec_lines [] ∧
      res.sent = relay two_clients 4 (spec_lines [NL]) ++ relay two_clients 4 [[NL]] ++
        relay two_clients 4 (spec_lines []) ∧
      (relay two_clients 4 [[NL]]).filter (fun e => e.1 = 5) =
        if two_clients.active_fds 5 = true ∧ 5 ≠ 4 ∧ 5 ≠ 3 then
          [((5, relay_head (two_clients.fd_to_id 4)) : Sent), (5, [NL])]
        else []) ∧
    (server_loop_body two_clients (recv_report 4 (bytes "\n\n"))).map Prod.snd =
      some [(5, bytes "client 0: "), (5, bytes "\n"), (5, bytes "client 0: "), (5, bytes "\n")] :=
  ⟨⟨reachable_two_clients, by decide, by decide, by decide, Or.inr ⟨[], rfl⟩⟩,
   empty_line_relayed 3 two_clients reachable_two_clients 4 (by decide) (bytes "\n\n")
    (by decide) [NL] [] (by decide) (Or.inr ⟨[], rfl⟩) 5,
   by decide⟩

/-! ## The remainder kept in the buffer -/

theorem spec_rest_after_last (a : List Byte) {r : List Byte} (hr : NL ∉ r) :
    spec_rest (a ++ NL :: r) = r := by
  have h1 : a ++ NL :: r = (a ++ [NL]) ++ r := by simp
  rw [h1, spec_rest_append, spec_rest_after_nl (Or.inr ⟨a, rfl⟩), List.nil_append,
    spec_rest_no_nl hr]

theorem client_message_spec (s : t_state) (h : Nat) (x : CStr)
    (hx : s.fd_to_buffer h = some x) :
    client_message s h = some
      { state := { s with fd_to_buffer := set_at s.fd_to_buffer h (some (spec_rest x)) },
        lines := spec_lines x,
        sent := relay s h (spec_lines x) } := by
  unfold client_message
  rw [hx]
  exact client_message_loop_spec h _ s x hx (by simp [buf_len])

theorem reachable_buffers_nl_free {L : Nat} {s : t_state} (hs : Reachable L s) (fd : Nat) :
    NL ∉ buf_bytes (s.fd_to_buffer fd) := by
  induction hs with
  | init hL => rw [main_state_small hL]; simp [buf_bytes]
  | @step s s1 out r _ _ hstep ih =>
    rcases server_loop_body_cases hstep with ⟨_, _, h1, _⟩ | ⟨_, _, h1, _⟩ | ⟨_, _, h1, _⟩ |
      ⟨_, _, h1, _⟩
    · rw [h1, client_join_fd_to_buffer]
      by_cases e : fd = r.client_fd.toNat
      · rw [e, set_at_same]; simp [buf_bytes]
      · rw [set_at_other _ _ e]; exact ih
    · rw [h1]; exact ih
    · rw [h1, client_leave_state, FD_CLR_fd_to_buffer]; exact ih
    · rw [h1]
      show NL ∉ buf_bytes (set_at s.fd_to_buffer r.fd _ fd)
      by_cases e : fd = r.fd
      · rw [e, set_at_same, buf_bytes_some]; exact spec_rest_nl_free _
      · rw [set_at_other _ _ e]; exact ih

/-- C12: remainder invariant.  When `client_message(h)` runs on a buffer
holding `x` (the pending bytes followed by the received chunk, as `str_join`
stored them), it returns and leaves in the buffer of `h` exactly the bytes of
`x` after its last '\n': all of `x` if it has no '\n', nothing if `x` ends in
'\n'.  After a read the buffer of `h` is that remainder, and in every
reachable state no active connection's buffer contains a '\n'. -/
theorem remainder_invariant (L : Nat) (s : t_state) (hs : Reachable L s) :
    (∀ (t : t_state) (h : Nat) (x : CStr), t.fd_to_buffer h = some x →
      ∃ res, client_message t h = some res ∧
        res.state.fd_to_buffer h = some (spec_rest x) ∧
        (∀ a r, x = a ++ NL :: r → NL ∉ r → spec_rest x = r) ∧
        (NL ∉ x → spec_rest x = x) ∧
        ((∃ q, x = q ++ [NL]) → spec_rest x = []) ∧
        NL ∉ spec_rest x) ∧
    (∀ (h : Nat) (d : List Byte), h ≠ L → d ≠ [] →
      ∃ s1 out, server_loop_body s (recv_report h d) = some (s1, out) ∧
        s1.fd_to_buffer h = some (spec_rest (buf_bytes (s.fd_to_buffer h) ++ c_str d))) ∧
    (∀ fd, s.active_fds fd = true → fd ≠ L → NL ∉ buf_bytes (s.fd_to_buffer fd)) := by
  refine ⟨?_, ?_, fun fd _ _ => reachable_buffers_nl_free hs fd⟩
  · intro t h x hx
    refine ⟨_, client_message_spec t h x hx, ?_, ?_, fun hn => spec_rest_no_nl hn,
      fun hq => spec_rest_after_nl (Or.inr hq), spec_rest_nl_free x⟩
    · show set_at t.fd_to_buffer h _ h = _
      rw [set_at_same]
    · intro a r hxa hr
      rw [hxa]; exact spec_rest_after_last a hr
  · intro h d hL hd
    have hinv := reachable_inv hs
    refine ⟨_, _, server_loop_body_recv_report s h (by rw [hinv.listen]; exact hL) d hd, ?_⟩
    show set_at s.fd_to_buffer h _ h = _
    rw [set_at_same]

theorem remainder_invariant_witness :
    Reachable 3 two_clients ∧
    (∃ res, client_message
          { two_clients with fd_to_buffer := (set_at two_clients.fd_to_buffer 4
              (some (bytes "ab\ncd\nef"))) } 4 = some res ∧
        res.state.fd_to_buffer 4 = some (spec_rest (bytes "ab\ncd\nef")) ∧
        spec_rest (bytes "ab\ncd\nef") = bytes "ef") ∧
    (∃ s1 out, server_loop_body two_clients (recv_report 4 (bytes "x\ny")) = some (s1, out) ∧
        s1.fd_to_buffer 4 =
          some (spec_rest (buf_bytes (two_clients.fd_to_buffer 4) ++ c_str (bytes "x\ny")))) ∧
    NL ∉ buf_bytes (two_clients.fd_to_buffer 5) := by
  have h := remainder_invariant 3 two_clients reachable_two_clients
  obtain ⟨res, h1, h2, _⟩ := h.1
    { two_clients with fd_to_buffer := (set_at two_clients.fd_to_buffer 4
        (some (bytes "ab\ncd\nef"))) } 4 (bytes "ab\ncd\nef") rfl
  exact ⟨reachable_two_clients, ⟨res, h1, h2, by decide⟩,
    h.2.1 4 (bytes "x\ny") (by decide) (by decide), h.2.2 5 rfl (by decide)⟩

/-! ## Recycled handles -/

/-- Within the limits of `fd_set` and `int`: if the connection on an active
client handle `h` is closed while its buffer holds pending bytes `p`, and after
any further reports `accept` returns the handle number `h` again, then
`client_join(h)` leaves the buffer of `h` empty and gives `h` the current
counter, an identity larger than the old one; the lines extracted from the
reads of the new connection are the lines of the received chunks alone, and
they are relayed with the new identity. -/
theorem recycled_handle_clean (L : Nat) (s : t_state) (hs : Reachable L s) (h : Nat)
    (hact : s.active_fds h = true) (hL : h ≠ L) (p : CStr)
    (_hp : s.fd_to_buffer h = some p) (evs : List Ready) (s2 : t_state) (out : List Sent)
    (hrun : Run (client_leave s h).1 evs s2 out) (chunks : List (List Byte))
    (d : List Byte) (hd : d ≠ []) :
    server_loop_body s2 (accept_report L h) = some (client_join s2 h) ∧
    (client_join s2 h).1.fd_to_buffer h = none ∧
    (client_join s2 h).1.fd_to_id h = s2.next_client_id ∧
    s.fd_to_id h < s2.next_client_id ∧
    (∃ s3, read_all (client_join s2 h).1 h chunks =
      some (s3, spec_lines (chunks.map c_str).flatten)) ∧
    (∃ s3, server_loop_body (client_join s2 h).1 (recv_report h d) =
      some (s3, (spec_lines (c_str d)).flatMap (fun line =>
        broadcast (client_join s2 h).1 h (relay_head s2.next_client_id) ++
          broadcast (client_join s2 h).1 h line))) := by
  have hinv := reachable_inv hs
  have hh : h < FD_SETSIZE := inv_active_small hinv hact
  have hinv1 : Inv L (client_leave s h).1 := inv_client_leave hinv hL hh
  have hinv2 : Inv L s2 := run_inv hrun hinv1
  have hcount := (run_counter hrun hinv1).2
  have hold := (hinv.ids h hact hL).2
  have hbuf : (client_join s2 h).1.fd_to_buffer h = none := by
    rw [client_join_fd_to_buffer, set_at_same]
  have hid : (client_join s2 h).1.fd_to_id h = s2.next_client_id := by
    rw [client_join_fd_to_id s2 hh, set_at_same]
  refine ⟨?_, hbuf, hid, ?_, ?_, ?_⟩
  · have := server_loop_body_accept (s := s2) (r := accept_report L h)
      (by rw [hinv2.listen]; rfl) (by simp [accept_report])
    simpa [accept_report] using this
  · have h0 : (client_leave s h).1.next_client_id = s.next_client_id := by
      rw [client_leave_small s hh]
    omega
  · obtain ⟨s3, h3, _⟩ := read_all_spec h chunks (client_join s2 h).1
      (by rw [hbuf]; simp [buf_bytes])
    rw [hbuf] at h3
    exact ⟨s3, by simpa [buf_bytes] using h3⟩
  · have hL2 : h ≠ (client_join s2 h).1.listen_fd := by
      rw [client_join_listen_fd, hinv2.listen]; exact hL
    have hstep := server_loop_body_recv_report (client_join s2 h).1 h hL2 d hd
    rw [hbuf] at hstep
    have hrel : relay (client_join s2 h).1 h (spec_lines (buf_bytes none ++ c_str d)) =
        (spec_lines (c_str d)).flatMap (fun line =>
          broadcast (client_join s2 h).1 h (relay_head s2.next_client_id) ++
            broadcast (client_join s2 h).1 h line) := by
      simp [buf_bytes, relay, hid]
    rw [hrel] at hstep
    exact ⟨_, hstep⟩

theorem reachable_pending_client : Reachable 3 pending_client := by
  have hstep := server_loop_body_recv_report two_clients 4 (by decide) (bytes "zz") (by decide)
  have e : spec_rest (buf_bytes (two_clients.fd_to_buffer 4) ++ c_str (bytes "zz")) =
      bytes "zz" := by decide
  rw [e] at hstep
  exact Reachable.step (recv_report 4 (bytes "zz")) reachable_two_clients (by decide) hstep

theorem recycled_handle_clean_witness :
    ∃ s2 out, Reachable 3 pending_client ∧ pending_client.active_fds 4 = true ∧ 4 ≠ 3 ∧
      pending_client.fd_to_buffer 4 = some (bytes "zz") ∧
      Run (client_leave pending_client 4).1
        [recv_report 5 (bytes "q\n"), accept_report 3 6] s2 out ∧
      bytes "new\n" ≠ [] ∧
      (server_loop_body s2 (accept_report 3 4) = some (client_join s2 4) ∧
      (client_join s2 4).1.fd_to_buffer 4 = none ∧
      (client_join s2 4).1.fd_to_id 4 = s2.next_client_id ∧
      pending_client.fd_to_id 4 < s2.next_client_id ∧
      (∃ s3, read_all (client_join s2 4).1 4 [bytes "ne", bytes "w\n"] =
        some (s3, spec_lines ([bytes "ne", bytes "w\n"].map c_str).flatten)) ∧
      (∃ s3, server_loop_body (client_join s2 4).1 (recv_report 4 (bytes "new\n")) =
        some (s3, (spec_lines (c_str (bytes "new\n"))).flatMap (fun line =>
          broadcast (client_join s2 4).1 4 (relay_head s2.next_client_id) ++
            broadcast (client_join s2 4).1 4 line)))) ∧
      (server_loop_body (client_join s2 4).1 (recv_report 4 (bytes "new\n"))).map Prod.snd =
        some [(5, bytes "client 3: "), (6, bytes "client 3: "),
              (5, bytes "new\n"), (6, bytes "new\n")] := by
  have hrun : Run (client_leave pending_client 4).1
      [recv_report 5 (bytes "q\n"), accept_report 3 6] _ _ :=
    Run.cons (by decide) rfl (Run.cons (by decide) rfl (Run.nil _))
  exact ⟨_, _, reachable_pending_client, by decide, by decide, by decide, hrun, by decide,
    recycled_handle_clean 3 pending_client reachable_pending_client 4 (by decide) (by decide)
      (bytes "zz") (by decide) _ _ _ hrun [bytes "ne", bytes "w\n"] (bytes "new\n")
      (by decide),
    by decide⟩


/-! ## The scan of `server_loop` -/

theorem server_loop_body_by_call (s : t_state) (r : Ready) :
    server_loop_body s r =
      match server_loop_call s r with
      | Call.join c => some (client_join s c)
      | Call.skip => some (s, [])
      | Call.leave fd => some (client_leave s fd)
      | Call.message fd =>
        (client_data s fd r.recv_ret.toNat r.recv_buf).map (fun res => (res.state, res.sent)) := by
  unfold server_loop_body server_loop_call
  by_cases h : r.fd = s.listen_fd
  · by_cases hc : r.client_fd ≥ 0 <;> simp [h, hc]
  · by_cases hn : r.recv_ret ≤ 0
    · simp [h, hn]
    · simp only [h, hn, if_false]
      cases client_data s r.fd r.recv_ret.toNat r.recv_buf <;> rfl

theorem server_loop_call_leave {s : t_state} {r : Ready} {fd : Nat}
    (h : server_loop_call s r = Call.leave fd) :
    r.fd ≠ s.listen_fd ∧ r.recv_ret ≤ 0 ∧ fd = r.fd := by
  unfold server_loop_call at h
  by_cases h1 : r.fd = s.listen_fd
  · by_cases hc : r.client_fd ≥ 0 <;> simp [h1, hc] at h
  · by_cases hn : r.recv_ret ≤ 0
    · simp only [h1, hn, if_false, if_true] at h
      exact ⟨h1, hn, (Call.leave.inj h).symm⟩
    · simp [h1, hn] at h

theorem server_loop_body_highest_fd {s s1 : t_state} {r : Ready} {out : List Sent}
    (hstep : server_loop_body s r = some (s1, out)) :
    s.highest_fd ≤ s1.highest_fd ∧
      s1.highest_fd ≤ max s.highest_fd r.client_fd.toNat ∧ s1.listen_fd = s.listen_fd := by
  rcases server_loop_body_cases hstep with ⟨_, _, h1, _⟩ | ⟨_, _, h1, _⟩ | ⟨_, _, h1, _⟩ |
    ⟨_, _, h1, _⟩
  · rw [h1, client_join_highest_fd, client_join_listen_fd]
    refine ⟨?_, ?_, rfl⟩ <;> split_ifs <;> omega
  · rw [h1]; exact ⟨le_refl _, by omega, rfl⟩
  · rw [h1, client_leave_state, FD_CLR_highest_fd, FD_CLR_listen_fd]
    exact ⟨le_refl _, le_max_left _ _, rfl⟩
  · rw [h1]; exact ⟨le_refl _, le_max_left _ _, rfl⟩

theorem server_loop_body_listen {L : Nat} {s s1 : t_state} {r : Ready} {out : List Sent}
    (hl : s.listen_fd = L) (ha : s.active_fds L = true)
    (hb : ∀ fd, s.active_fds fd = true → fd ≤ s.highest_fd)
    (hstep : server_loop_body s r = some (s1, out)) :
    s1.listen_fd = L ∧ s1.active_fds L = true ∧
      ∀ fd, s1.active_fds fd = true → fd ≤ s1.highest_fd := by
  rcases server_loop_body_cases hstep with ⟨_, _, h1, _⟩ | ⟨_, _, h1, _⟩ | ⟨hfd, _, h1, _⟩ |
    ⟨_, _, h1, _⟩
  · refine ⟨by rw [h1, client_join_listen_fd]; exact hl, ?_, ?_⟩
    · rw [h1, client_join_active_fds_any]
      split_ifs
      · by_cases e : L = r.client_fd.toNat
        · rw [← e, set_at_same]
        · rw [set_at_other _ _ e]; exact ha
      · exact ha
    · intro fd hfd
      rw [h1, client_join_active_fds_any] at hfd
      rw [h1, client_join_highest_fd]
      have hfd2 : fd = r.client_fd.toNat ∨ s.active_fds fd = true := by
        split_ifs at hfd
        · by_cases e : fd = r.client_fd.toNat
          · exact Or.inl e
          · rw [set_at_other _ _ e] at hfd; exact Or.inr hfd
        · exact Or.inr hfd
      rcases hfd2 with e | h2
      · split_ifs <;> omega
      · have := hb fd h2
        split_ifs <;> omega
  · rw [h1]; exact ⟨hl, ha, hb⟩
  · have hact : ∀ fd, (client_leave s r.fd).1.active_fds fd = true → s.active_fds fd = true := by
      intro fd h2
      rw [client_leave_state, FD_CLR_active_fds] at h2
      split_ifs at h2
      · by_cases e : fd = r.fd
        · rw [e, set_at_same] at h2; exact Bool.noConfusion h2
        · rw [set_at_other _ _ e] at h2; exact h2
      · exact h2
    refine ⟨by rw [h1, client_leave_state, FD_CLR_listen_fd]; exact hl, ?_, ?_⟩
    · rw [h1, client_leave_state, FD_CLR_active_fds]
      have hne : L ≠ r.fd := by rw [← hl]; exact fun e => hfd e.symm
      split_ifs
      · rw [set_at_other _ _ hne]; exact ha
      · exact ha
    · intro fd h2
      rw [h1] at h2 ⊢
      rw [client_leave_state, FD_CLR_highest_fd]
      exact hb fd (hact fd h2)
  · rw [h1]; exact ⟨hl, ha, hb⟩

theorem server_loop_scan_terminates (ready : Nat → Bool) (os : Nat → Ready) (B : Nat)
    (n : Nat) :
    ∀ (s : t_state) (i : Nat), s.highest_fd ≤ B →
      (os s.listen_fd).client_fd.toNat ≤ B → B + 1 - i ≤ n →
      ∃ res, server_loop_scan (n + 1) s i ready os = some res := by
  induction n with
  | zero =>
    intro s i hB _ hn
    have hi : ¬ i ≤ s.highest_fd := by omega
    exact ⟨(s, [], []), by simp [server_loop_scan, hi]⟩
  | succ n ih =>
    intro s i hB hc hn
    by_cases hi : i ≤ s.highest_fd
    · by_cases hr : ready i = false
      · obtain ⟨res, hres⟩ := ih s (i + 1) hB hc (by omega)
        exact ⟨res, by rw [server_loop_scan]; simp only [hi, hr, if_true]; exact hres⟩
      · obtain ⟨⟨s1, o1⟩, hstep⟩ := server_loop_body_total s { os i with fd := i }
        obtain ⟨_, hmax, hl⟩ := server_loop_body_highest_fd hstep
        have hB1 : s1.highest_fd ≤ B := by
          rcases server_loop_body_cases hstep with ⟨hfd, _, h1, _⟩ | ⟨_, _, h1, _⟩ |
            ⟨_, _, h1, _⟩ | ⟨_, _, h1, _⟩
          · have hfd2 : i = s.listen_fd := hfd
            rw [← hfd2] at hc
            have hc2 : ({ os i with fd := i } : Ready).client_fd = (os i).client_fd := rfl
            rw [hc2] at hmax
            omega
          · rw [h1]; exact hB
          · rw [h1, client_leave_state, FD_CLR_highest_fd]; exact hB
          · rw [h1]; exact hB
        obtain ⟨⟨s2, o2, calls⟩, hres⟩ := ih s1 (i + 1) hB1 (by rw [hl]; exact hc) (by omega)
        exact ⟨(s2, o1 ++ o2, (i, server_loop_call s { os i with fd := i }) :: calls), by
          rw [server_loop_scan]; simp [hi, hr, hstep, hres]⟩
    · exact ⟨(s, [], []), by simp [server_loop_scan, hi]⟩

theorem server_loop_scan_returns (s : t_state) (ready : Nat → Bool) (os : Nat → Ready) :
    ∃ fuel res, server_loop_scan fuel s 0 ready os = some res := by
  obtain ⟨res, h⟩ := server_loop_scan_terminates ready os
    (max s.highest_fd (os s.listen_fd).client_fd.toNat)
    (max s.highest_fd (os s.listen_fd).client_fd.toNat + 1) s 0
    (le_max_left _ _) (le_max_right _ _) (by omega)
  exact ⟨_, res, h⟩

theorem server_loop_scan_inv {L : Nat} (ready : Nat → Bool) (os : Nat → Ready) (fuel : Nat) :
    ∀ (s : t_state) (i : Nat) (s2 : t_state) (out : List Sent) (calls : List (Nat × Call)),
      s.listen_fd = L → s.active_fds L = true →
      (∀ fd, s.active_fds fd = true → fd ≤ s.highest_fd) →
      server_loop_scan fuel s i ready os = some (s2, out, calls) →
      (s2.listen_fd = L ∧ s2.active_fds L = true ∧
        ∀ fd, s2.active_fds fd = true → fd ≤ s2.highest_fd) ∧
      s.highest_fd ≤ s2.highest_fd ∧ ∀ t ∈ calls, t.2 ≠ Call.leave L := by
  induction fuel with
  | zero => intro s i s2 out calls _ _ _ h; simp [server_loop_scan] at h
  | succ fuel ih =>
    intro s i s2 out calls hl ha hb h
    rw [server_loop_scan] at h
    by_cases hi : i ≤ s.highest_fd
    · by_cases hr : ready i = false
      · simp only [hi, hr, if_true] at h
        exact ih s (i + 1) s2 out calls hl ha hb h
      · have hr2 : ready i = true := by simpa using hr
        simp only [hi, hr2, if_true, Bool.true_eq_false, if_false] at h
        obtain ⟨⟨s1, o1⟩, hstep⟩ := server_loop_body_total s { os i with fd := i }
        rw [hstep] at h
        simp only at h
        rcases hrec : server_loop_scan fuel s1 (i + 1) ready os with _ | ⟨s3, o3, calls3⟩
        · rw [hrec] at h; simp at h
        · rw [hrec] at h
          simp only [Option.some.injEq, Prod.mk.injEq] at h
          obtain ⟨e1, _, e3⟩ := h
          obtain ⟨hl1, ha1, hb1⟩ := server_loop_body_listen hl ha hb hstep
          obtain ⟨hinv, hhi, hcalls⟩ := ih s1 (i + 1) s3 o3 calls3 hl1 ha1 hb1 hrec
          have hmono := (server_loop_body_highest_fd hstep).1
          subst e1
          refine ⟨hinv, by omega, ?_⟩
          intro t ht
          rw [← e3] at ht
          rcases List.mem_cons.mp ht with e | hmem
          · rw [e]
            intro hleave
            have := (server_loop_call_leave hleave).1
            rw [hl] at this
            exact this (server_loop_call_leave hleave).2.2.symm
          · exact hcalls t hmem
    · simp only [hi, if_false, Option.some.injEq, Prod.mk.injEq] at h
      obtain ⟨e1, _, e3⟩ := h
      subst e1
      exact ⟨⟨hl, ha, hb⟩, le_refl _, by rw [← e3]; simp⟩

/-- C14: the listening handle is never removed.  In every reachable state the
listening handle recorded by `main` is in the active set; no turn of the loop
calls `client_leave` on it, and after any turn and after any whole pass of the
loop `for (fd = 0; fd <= highest_fd; fd++)`, which always ends, it is still in
the active set. -/
theorem listening_handle_kept (L : Nat) (s : t_state) (hs : Reachable L s) :
    s.listen_fd = L ∧ s.active_fds L = true ∧
    (∀ r, server_loop_call s r ≠ Call.leave L) ∧
    (∀ r s1 out, server_loop_body s r = some (s1, out) →
      s1.listen_fd = L ∧ s1.active_fds L = true) ∧
    (∀ ready os, ∃ fuel s2 out calls,
      server_loop_scan fuel s 0 ready os = some (s2, out, calls) ∧
      s2.listen_fd = L ∧ s2.active_fds L = true ∧ ∀ t ∈ calls, t.2 ≠ Call.leave L) := by
  have hinv := reachable_inv hs
  refine ⟨hinv.listen, hinv.listen_active, ?_, ?_, ?_⟩
  · intro r hleave
    have h1 := server_loop_call_leave hleave
    rw [hinv.listen] at h1
    exact h1.1 h1.2.2.symm
  · intro r s1 out hstep
    have := server_loop_body_listen hinv.listen hinv.listen_active hinv.bound hstep
    exact ⟨this.1, this.2.1⟩
  · intro ready os
    obtain ⟨fuel, ⟨s2, out, calls⟩, hscan⟩ := server_loop_scan_returns s ready os
    obtain ⟨hinv2, _, hcalls⟩ := server_loop_scan_inv ready os fuel s 0 s2 out calls
      hinv.listen hinv.listen_active hinv.bound hscan
    exact ⟨fuel, s2, out, calls, hscan, hinv2.1, hinv2.2.1, hcalls⟩

theorem listening_handle_kept_witness :
    Reachable 3 two_clients ∧
    (two_clients.listen_fd = 3 ∧ two_clients.active_fds 3 = true ∧
    (∀ r, server_loop_call two_clients r ≠ Call.leave 3) ∧
    (∀ r s1 out, server_loop_body two_clients r = some (s1, out) →
      s1.listen_fd = 3 ∧ s1.active_fds 3 = true) ∧
    (∀ ready os, ∃ fuel s2 out calls,
      server_loop_scan fuel two_clients 0 ready os = some (s2, out, calls) ∧
      s2.listen_fd = 3 ∧ s2.active_fds 3 = true ∧ ∀ t ∈ calls, t.2 ≠ Call.leave 3)) ∧
    (server_loop_scan 8 two_clients 0 (fun fd => decide (fd = 3) || decide (fd = 4))
        (fun fd => if fd = 3 then accept_report 3 6 else close_report fd 0)).map
      (fun res => (res.2.2, res.1.active_fds 3, res.1.active_fds 4, res.1.active_fds 6)) =
      some ([(3, Call.join 6), (4, Call.leave 4)], true, false, true) :=
  ⟨reachable_two_clients, listening_handle_kept 3 two_clients reachable_two_clients,
   by decide⟩

/-! ## The scan limit -/

theorem run_highest_fd {s s1 : t_state} {evs : List Ready} {out : List Sent}
    (hrun : Run s evs s1 out) : s.highest_fd ≤ s1.highest_fd := by
  induction hrun with
  | nil => exact le_refl _
  | cons _ hstep _ ih => exact le_trans (server_loop_body_highest_fd hstep).1 ih

theorem server_loop_scan_visits (ready : Nat → Bool) (os : Nat → Ready) (fuel : Nat) :
    ∀ (s : t_state) (i : Nat) (s2 : t_state) (out : List Sent) (calls : List (Nat × Call)),
      server_loop_scan fuel s i ready os = some (s2, out, calls) →
      ∀ fd, i ≤ fd → fd ≤ s.highest_fd → ready fd = true → fd ∈ calls.map Prod.fst := by
  induction fuel with
  | zero => intro s i s2 out calls h; simp [server_loop_scan] at h
  | succ fuel ih =>
    intro s i s2 out calls h fd hfd hhi hrdy
    rw [server_loop_scan] at h
    by_cases hi : i ≤ s.highest_fd
    · by_cases hr : ready i = false
      · simp only [hi, hr, if_true] at h
        have hne : fd ≠ i := by
          intro e; rw [e, hr] at hrdy; exact Bool.noConfusion hrdy
        exact ih s (i + 1) s2 out calls h fd (by omega) hhi hrdy
      · have hr2 : ready i = true := by simpa using hr
        simp only [hi, hr2, if_true, Bool.true_eq_false, if_false] at h
        obtain ⟨⟨s1, o1⟩, hstep⟩ := server_loop_body_total s { os i with fd := i }
        rw [hstep] at h
        simp only at h
        rcases hrec : server_loop_scan fuel s1 (i + 1) ready os with _ | ⟨s3, o3, calls3⟩
        · rw [hrec] at h; simp at h
        · rw [hrec] at h
          simp only [Option.some.injEq, Prod.mk.injEq] at h
          obtain ⟨_, _, e3⟩ := h
          rw [← e3, List.map_cons, List.mem_cons]
          by_cases e : fd = i
          · exact Or.inl e
          · have hmono := (server_loop_body_highest_fd hstep).1
            exact Or.inr (ih s1 (i + 1) s3 o3 calls3 hrec fd (by omega) (by omega) hrdy)
    · omega

/-- Within the limits of `fd_set` and `int`: in every state of `Reachable`
every handle of the active set is at most `highest_fd`, and `highest_fd` never
decreases, over a turn, over any sequence of reports and over a whole pass of
the loop.  Hence the loop of `broadcast` reaches every active handle it has to
send to, and a pass of the loop of `server_loop`, which always ends, serves
every handle that `select` reported among the active ones. -/
theorem scan_limit_bound (L : Nat) (s : t_state) (hs : Reachable L s) :
    (∀ fd, s.active_fds fd = true → fd ≤ s.highest_fd) ∧
    (∀ r s1 out, server_loop_body s r = some (s1, out) → s.highest_fd ≤ s1.highest_fd) ∧
    (∀ evs s1 out, Run s evs s1 out → s.highest_fd ≤ s1.highest_fd) ∧
    (∀ fd, s.active_fds fd = true → fd ∈ List.range (s.highest_fd + 1)) ∧
    (∀ sender msg fd, s.active_fds fd = true → fd ≠ sender → fd ≠ L →
      (fd, msg) ∈ broadcast s sender msg) ∧
    (∀ ready os, (∀ fd, ready fd = true → s.active_fds fd = true) →
      ∃ fuel s2 out calls, server_loop_scan fuel s 0 ready os = some (s2, out, calls) ∧
        s.highest_fd ≤ s2.highest_fd ∧
        (∀ fd, s2.active_fds fd = true → fd ≤ s2.highest_fd) ∧
        ∀ fd, ready fd = true → fd ∈ calls.map Prod.fst) := by
  have hinv := reachable_inv hs
  refine ⟨hinv.bound, fun r s1 out hstep => (server_loop_body_highest_fd hstep).1,
    fun evs s1 out hrun => run_highest_fd hrun, ?_, ?_, ?_⟩
  · intro fd hfd
    have := hinv.bound fd hfd
    exact List.mem_range.mpr (by omega)
  · intro sender msg fd hfd hsend hL
    have h := broadcast_sends_to s hinv.bound hinv.limit sender msg fd
    rw [if_pos ⟨hfd, hsend, by rw [hinv.listen]; exact hL⟩] at h
    have hmem : (fd, msg) ∈ (broadcast s sender msg).filter (fun e => e.1 = fd) := by
      rw [h]; exact List.mem_singleton_self _
    exact (List.mem_filter.mp hmem).1
  · intro ready os hready
    obtain ⟨fuel, ⟨s2, out, calls⟩, hscan⟩ := server_loop_scan_returns s ready os
    obtain ⟨hinv2, hmono, _⟩ := server_loop_scan_inv ready os fuel s 0 s2 out calls
      hinv.listen hinv.listen_active hinv.bound hscan
    refine ⟨fuel, s2, out, calls, hscan, hmono, hinv2.2.2, ?_⟩
    intro fd hfd
    exact server_loop_scan_visits ready os fuel s 0 s2 out calls hscan fd (Nat.zero_le _)
      (hinv.bound fd (hready fd hfd)) hfd

theorem scan_limit_bound_witness :
    Reachable 3 two_clients ∧
    ((∀ fd, two_clients.active_fds fd = true → fd ≤ two_clients.highest_fd) ∧
    (∀ r s1 out, server_loop_body two_clients r = some (s1, out) →
      two_clients.highest_fd ≤ s1.highest_fd) ∧
    (∀ evs s1 out, Run two_clients evs s1 out → two_clients.highest_fd ≤ s1.highest_fd) ∧
    (∀ fd, two_clients.active_fds fd = true → fd ∈ List.range (two_clients.highest_fd + 1)) ∧
    (∀ sender msg fd, two_clients.active_fds fd = true → fd ≠ sender → fd ≠ 3 →
      (fd, msg) ∈ broadcast two_clients sender msg) ∧
    (∀ ready os, (∀ fd, ready fd = true → two_clients.active_fds fd = true) →
      ∃ fuel s2 out calls,
        server_loop_scan fuel two_clients 0 ready os = some (s2, out, calls) ∧
        two_clients.highest_fd ≤ s2.highest_fd ∧
        (∀ fd, s2.active_fds fd = true → fd ≤ s2.highest_fd) ∧
        ∀ fd, ready fd = true → fd ∈ calls.map Prod.fst)) ∧
    two_clients.highest_fd = 5 ∧
    (client_join (client_leave two_clients 5).1 9).1.highest_fd = 9 ∧
    (client_leave (client_join (client_leave two_clients 5).1 9).1 9).1.highest_fd = 9 :=
  ⟨reachable_two_clients, scan_limit_bound 3 two_clients reachable_two_clients,
   by decide, by decide, by decide⟩


/-! ## Frame of an inbound read -/

/-- C16: frame of an inbound read.  For a handle other than the listening one
and a `recv` result of positive length, the turn is `str_join` followed by
`client_message`; it returns and changes nothing but the handle's own buffer:
the active set, `highest_fd`, the counter, the listening handle, every identity
and every other handle's buffer are as before. -/
theorem read_frame (s : t_state) (r : Ready) (hfd : r.fd ≠ s.listen_fd)
    (hn : 0 < r.recv_ret) :
    server_loop_call s r = Call.message r.fd ∧
    ∃ s1 out, server_loop_body s r = some (s1, out) ∧
      s1.active_fds = s.active_fds ∧ s1.highest_fd = s.highest_fd ∧
      s1.next_client_id = s.next_client_id ∧ s1.listen_fd = s.listen_fd ∧
      s1.fd_to_id = s.fd_to_id ∧
      ∀ k, k ≠ r.fd → s1.fd_to_buffer k = s.fd_to_buffer k := by
  refine ⟨?_, _, _, server_loop_body_data hfd hn, rfl, rfl, rfl, rfl, rfl, ?_⟩
  · have hn2 : ¬ r.recv_ret ≤ 0 := by omega
    simp [server_loop_call, hfd, hn2]
  · intro k hk
    show set_at s.fd_to_buffer r.fd _ k = _
    exact set_at_other _ _ hk

theorem read_frame_witness :
    ((recv_report 4 (bytes "x\ny")).fd ≠ two_clients.listen_fd ∧
      0 < (recv_report 4 (bytes "x\ny")).recv_ret) ∧
    (server_loop_call two_clients (recv_report 4 (bytes "x\ny")) =
      Call.message (recv_report 4 (bytes "x\ny")).fd ∧
    ∃ s1 out, server_loop_body two_clients (recv_report 4 (bytes "x\ny")) = some (s1, out) ∧
      s1.active_fds = two_clients.active_fds ∧ s1.highest_fd = two_clients.highest_fd ∧
      s1.next_client_id = two_clients.next_client_id ∧ s1.listen_fd = two_clients.listen_fd ∧
      s1.fd_to_id = two_clients.fd_to_id ∧
      ∀ k, k ≠ (recv_report 4 (bytes "x\ny")).fd →
        s1.fd_to_buffer k = two_clients.fd_to_buffer k) ∧
    (server_loop_body two_clients (recv_report 4 (bytes "x\ny"))).map
        (fun res => (res.1.fd_to_buffer 4, res.1.fd_to_buffer 5, res.1.fd_to_id 4)) =
      some (some (bytes "y"), none, 0) :=
  ⟨⟨by decide, by decide⟩,
   read_frame two_clients (recv_report 4 (bytes "x\ny")) (by decide) (by decide),
   by decide⟩

/-! ## Termination of the extraction loop -/

theorem spec_lines_length (x : List Byte) : (spec_lines x).length = x.count NL := by
  induction x using nl_induction with
  | h0 b h => rw [spec_lines_no_nl h, List.count_eq_zero.mpr h]; rfl
  | h1 p rest hp ih =>
    rw [spec_lines_first hp, List.length_cons, ih, List.count_append, List.count_cons_self,
      List.count_eq_zero.mpr hp]
    omega

theorem client_message_loop_exact (h : Nat) (fuel : Nat) :
    ∀ (s : t_state) (x : CStr), s.fd_to_buffer h = some x →
      (x.count NL < fuel → client_message_loop fuel s h = some
        { state := { s with fd_to_buffer := set_at s.fd_to_buffer h (some (spec_rest x)) },
          lines := spec_lines x,
          sent := relay s h (spec_lines x) }) ∧
      (fuel ≤ x.count NL → client_message_loop fuel s h = none) := by
  induction fuel with
  | zero => intro s x _; exact ⟨fun hf => by omega, fun _ => rfl⟩
  | succ fuel ih =>
    intro s x hx
    by_cases hnl : NL ∈ x
    · obtain ⟨p, rest, hp, hpr⟩ := split_first hnl
      subst hpr
      have hcount : (p ++ NL :: rest).count NL = rest.count NL + 1 := by
        rw [List.count_append, List.count_cons_self, List.count_eq_zero.mpr hp]; omega
      obtain ⟨ih1, ih2⟩ := ih { s with fd_to_buffer := set_at s.fd_to_buffer h (some rest) }
        rest (by simp)
      constructor
      · intro hf
        have step := ih1 (by omega)
        simp only [client_message_loop, hx, extract_message_first hp, step, if_true,
          spec_lines_first hp, spec_rest_first hp, set_at_set_at]
        simp [relay, broadcast, relay_head, FD_ISSET]
      · intro hf
        have step := ih2 (by omega)
        simp only [client_message_loop, hx, extract_message_first hp, step, if_true]
    · constructor
      · intro _
        simp [client_message_loop, hx, extract_message_none_of_no_nl hnl,
          spec_lines_no_nl hnl, spec_rest_no_nl hnl, relay]
      · intro hf
        rw [List.count_eq_zero.mpr hnl] at hf
        omega

/-- C17: the extraction loop terminates.  On a buffer holding `x` the loop of
`client_message` returns; it extracts exactly as many lines as `x` has '\n'
bytes: that many calls of `extract_message` are not enough to end the loop and
one more call is.  Each successful `extract_message` leaves a buffer shorter
by at least one byte.  On a `NULL` buffer the loop ends at once. -/
theorem extraction_loop_terminates (s : t_state) (h : Nat) (x : CStr)
    (hx : s.fd_to_buffer h = some x) :
    (∃ res, client_message s h = some res ∧ res.lines.length = x.count NL) ∧
    (∃ res, client_message_loop (x.count NL + 1) s h = some res ∧
      res.lines.length = x.count NL) ∧
    client_message_loop (x.count NL) s h = none ∧
    (∀ b : CStr, NL ∈ b → (extract_message (some b)).ret = 1 ∧
      buf_len (extract_message (some b)).buf + 1 ≤ b.length) ∧
    (∀ (t : t_state) (k : Nat), t.fd_to_buffer k = none →
      ∃ res, client_message t k = some res ∧ res.lines = []) := by
  refine ⟨⟨_, client_message_spec s h x hx, spec_lines_length x⟩,
    ⟨_, (client_message_loop_exact h _ s x hx).1 (Nat.lt_succ_self _), spec_lines_length x⟩,
    (client_message_loop_exact h _ s x hx).2 (le_refl _), ?_, ?_⟩
  · intro b hb
    obtain ⟨p, rest, hp, hpr⟩ := split_first hb
    subst hpr
    rw [extract_message_first hp]
    simp [buf_len]
  · intro t k hk
    exact ⟨{ state := { t with fd_to_buffer := set_at t.fd_to_buffer k none },
             lines := [], sent := [] },
      by simp [client_message, client_message_loop, hk, extract_message, buf_len], rfl⟩

theorem extraction_loop_terminates_witness :
    (({ two_clients with fd_to_buffer := (set_at two_clients.fd_to_buffer 4
          (some (bytes "a\n\nbc\nd"))) } : t_state).fd_to_buffer 4 =
      some (bytes "a\n\nbc\nd")) ∧
    ((∃ res, client_message
          { two_clients with fd_to_buffer := (set_at two_clients.fd_to_buffer 4
            (some (bytes "a\n\nbc\nd"))) } 4 = some res ∧
        res.lines.length = (bytes "a\n\nbc\nd").count NL) ∧
    (∃ res, client_message_loop ((bytes "a\n\nbc\nd").count NL + 1)
          { two_clients with fd_to_buffer := (set_at two_clients.fd_to_buffer 4
            (some (bytes "a\n\nbc\nd"))) } 4 = some res ∧
      res.lines.length = (bytes "a\n\nbc\nd").count NL) ∧
    client_message_loop ((bytes "a\n\nbc\nd").count NL)
        { two_clients with fd_to_buffer := (set_at two_clients.fd_to_buffer 4
          (some (bytes "a\n\nbc\nd"))) } 4 = none ∧
    (∀ b : CStr, NL ∈ b → (extract_message (some b)).ret = 1 ∧
      buf_len (extract_message (some b)).buf + 1 ≤ b.length) ∧
    (∀ (t : t_state) (k : Nat), t.fd_to_buffer k = none →
      ∃ res, client_message t k = some res ∧ res.lines = [])) ∧
    ((bytes "a\n\nbc\nd").count NL = 3 ∧
     (client_message_loop 4
        { two_clients with fd_to_buffer := (set_at two_clients.fd_to_buffer 4
            (some (bytes "a\n\nbc\nd"))) } 4).map (fun res => res.lines) =
      some [bytes "a\n", bytes "\n", bytes "bc\n"] ∧
     (client_message_loop 3
        { two_clients with fd_to_buffer := (set_at two_clients.fd_to_buffer 4
            (some (bytes "a\n\nbc\nd"))) } 4).map (fun res => res.lines) = none) :=
  ⟨rfl,
   extraction_loop_terminates
    { two_clients with fd_to_buffer := (set_at two_clients.fd_to_buffer 4
        (some (bytes "a\n\nbc\nd"))) } 4 (bytes "a\n\nbc\nd") rfl,
   by decide, by decide, by decide⟩

/-! ## Zero bytes in a received chunk -/

theorem c_str_first_zero (d : List Byte) :
    ∀ k, d[k]? = some 0 → (∀ j, j < k → d[j]? ≠ some 0) → c_str d = d.take k := by
  induction d with
  | nil => intro k hk; simp at hk
  | cons c cs ih =>
    intro k hk hfirst
    cases k with
    | zero =>
      have hc : c = 0 := by simpa using hk
      simp [c_str, hc]
    | succ k =>
      have hc : c ≠ 0 := by
        intro e
        exact hfirst 0 (Nat.succ_pos k) (by simp [e])
      have hrec := ih k (by simpa using hk) (fun j hj => by
        have := hfirst (j + 1) (by omega)
        simpa using this)
      unfold c_str at hrec ⊢
      rw [List.takeWhile_cons_of_pos (by simpa using hc), hrec, List.take_succ_cons]

theorem no_zero_before {d : List Byte} {k : Nat} (hfirst : ∀ j, j < k → d[j]? ≠ some 0) :
    (0 : Byte) ∉ d.take k := by
  intro hmem
  obtain ⟨j, hj, hget⟩ := List.getElem_of_mem hmem
  rw [List.length_take] at hj
  have hjk : j < k := by omega
  have hjd : j < d.length := by omega
  rw [List.getElem_take] at hget
  exact hfirst j hjk (by rw [List.getElem?_eq_getElem hjd, hget])

/-- C18: zero bytes truncate a read.  For a received chunk `d` of 1 to 1000
bytes whose first zero byte is at index `k`, the string `str_join` appends is
the first `k` bytes of `d`: the buffer becomes the pending bytes followed by
these, and the whole outcome of the read (state, extracted lines, sends) is
the one of a read of the first `k` bytes alone, so the zero byte and what
follows it are neither stored nor relayed.  For a chunk without zero byte the
whole chunk is appended. -/
theorem zero_byte_truncates (s : t_state) (h : Nat) (hL : h ≠ s.listen_fd) (d : List Byte)
    (hd : d ≠ []) (_hlen : d.length ≤ 1000) :
    (∀ k, d[k]? = some 0 → (∀ j, j < k → d[j]? ≠ some 0) →
      str_join (s.fd_to_buffer h) (c_str (d.take d.length)) =
        some (buf_bytes (s.fd_to_buffer h) ++ d.take k) ∧
      client_data s h d.length d = client_data s h k d ∧
      ∃ res, client_data s h d.length d = some res ∧
        server_loop_body s (recv_report h d) = some (res.state, res.sent) ∧
        res.lines = spec_lines (buf_bytes (s.fd_to_buffer h) ++ d.take k) ∧
        res.state.fd_to_buffer h =
          some (spec_rest (buf_bytes (s.fd_to_buffer h) ++ d.take k)) ∧
        res.sent = relay s h (spec_lines (buf_bytes (s.fd_to_buffer h) ++ d.take k))) ∧
    ((0 : Byte) ∉ d →
      str_join (s.fd_to_buffer h) (c_str (d.take d.length)) =
        some (buf_bytes (s.fd_to_buffer h) ++ d)) := by
  have hjoin : ∀ add : CStr, str_join (s.fd_to_buffer h) add =
      some (buf_bytes (s.fd_to_buffer h) ++ add) := by
    intro add
    cases s.fd_to_buffer h <;> simp [str_join, buf_bytes]
  constructor
  · intro k hk hfirst
    have hcut : c_str d = d.take k := c_str_first_zero d k hk hfirst
    have hcut2 : c_str (d.take k) = d.take k := c_str_of_no_zero (no_zero_before hfirst)
    have hdata := client_data_spec s h d.length d
    have hdatak := client_data_spec s h k d
    have hbody := server_loop_body_recv_report s h hL d hd
    rw [List.take_length, hcut] at hdata
    rw [hcut2] at hdatak
    rw [hcut] at hbody
    refine ⟨by rw [List.take_length, hcut, hjoin], by rw [hdata, hdatak], _, hdata, hbody, rfl,
      ?_, rfl⟩
    show set_at s.fd_to_buffer h _ h = _
    rw [set_at_same]
  · intro hz
    rw [List.take_length, c_str_of_no_zero hz, hjoin]

theorem zero_byte_truncates_witness :
    (4 ≠ two_clients.listen_fd ∧ bytes "ab\x00cd\nef" ≠ [] ∧
      (bytes "ab\x00cd\nef").length ≤ 1000 ∧ (bytes "ab\x00cd\nef")[2]? = some 0 ∧
      (∀ j, j < 2 → (bytes "ab\x00cd\nef")[j]? ≠ some 0)) ∧
    (str_join (two_clients.fd_to_buffer 4)
        (c_str ((bytes "ab\x00cd\nef").take (bytes "ab\x00cd\nef").length)) =
        some (buf_bytes (two_clients.fd_to_buffer 4) ++ (bytes "ab\x00cd\nef").take 2) ∧
      client_data two_clients 4 (bytes "ab\x00cd\nef").length (bytes "ab\x00cd\nef") =
        client_data two_clients 4 2 (bytes "ab\x00cd\nef") ∧
      ∃ res, client_data two_clients 4 (bytes "ab\x00cd\nef").length (bytes "ab\x00cd\nef") =
          some res ∧
        server_loop_body two_clients (recv_report 4 (bytes "ab\x00cd\nef")) =
          some (res.state, res.sent) ∧
        res.lines = spec_lines (buf_bytes (two_clients.fd_to_buffer 4) ++
          (bytes "ab\x00cd\nef").take 2) ∧
        res.state.fd_to_buffer 4 =
          some (spec_rest (buf_bytes (two_clients.fd_to_buffer 4) ++
            (bytes "ab\x00cd\nef").take 2)) ∧
        res.sent = relay two_clients 4 (spec_lines (buf_bytes (two_clients.fd_to_buffer 4) ++
          (bytes "ab\x00cd\nef").take 2))) ∧
    ((0 : Byte) ∉ bytes "ab\ncd" ∧
      str_join (two_clients.fd_to_buffer 4)
        (c_str ((bytes "ab\ncd").take (bytes "ab\ncd").length)) =
        some (buf_bytes (two_clients.fd_to_buffer 4) ++ bytes "ab\ncd")) ∧
    (server_loop_body two_clients (recv_report 4 (bytes "ab\x00cd\nef"))).map
        (fun res => (res.1.fd_to_buffer 4, res.2)) = some (some (bytes "ab"), []) :=
  ⟨⟨by decide, by decide, by decide, by decide, by decide⟩,
   (zero_byte_truncates two_clients 4 (by decide) (bytes "ab\x00cd\nef") (by decide)
      (by decide)).1 2 (by decide) (by decide),
   ⟨by decide, (zero_byte_truncates two_clients 4 (by decide) (bytes "ab\ncd") (by decide)
      (by decide)).2 (by decide)⟩,
   by decide⟩

/-! ## Passes of the loop and reachable states -/

theorem server_loop_scan_reachable {L : Nat} (ready : Nat → Bool) (os : Nat → Ready)
    (hrecv : ∀ fd, (os fd).recv_ret ≤ 1000) (fuel : Nat) :
    ∀ (s : t_state) (i : Nat) (s2 : t_state) (out : List Sent) (calls : List (Nat × Call)),
      Reachable L s →
      (∀ fd, i ≤ fd → ready fd = true → s.active_fds fd = true) →
      (i ≤ L → 0 ≤ (os L).client_fd →
        s.active_fds (os L).client_fd.toNat = false ∧ (os L).client_fd.toNat < FD_SETSIZE ∧
          s.next_client_id < INT_MAX) →
      server_loop_scan fuel s i ready os = some (s2, out, calls) → Reachable L s2 := by
  induction fuel with
  | zero => intro s i s2 out calls _ _ _ h; simp [server_loop_scan] at h
  | succ fuel ih =>
    intro s i s2 out calls hs hready hacc h
    rw [server_loop_scan] at h
    by_cases hi : i ≤ s.highest_fd
    · by_cases hr : ready i = false
      · simp only [hi, hr, if_true] at h
        exact ih s (i + 1) s2 out calls hs (fun fd hfd => hready fd (by omega))
          (fun hL => hacc (by omega)) h
      · have hr2 : ready i = true := by simpa using hr
        simp only [hi, hr2, if_true, Bool.true_eq_false, if_false] at h
        obtain ⟨⟨s1, o1⟩, hstep⟩ := server_loop_body_total s { os i with fd := i }
        rw [hstep] at h
        simp only at h
        rcases hrec : server_loop_scan fuel s1 (i + 1) ready os with _ | ⟨s3, o3, calls3⟩
        · rw [hrec] at h; simp at h
        · rw [hrec] at h
          simp only [Option.some.injEq, Prod.mk.injEq] at h
          obtain ⟨e1, _, _⟩ := h
          subst e1
          have hinv := reachable_inv hs
          have henv : EnvOk s { os i with fd := i } := by
            refine ⟨hready i (le_refl _) hr2, ?_, fun _ => hrecv i⟩
            intro hfd hc
            have hiL : i = L := by
              have : i = s.listen_fd := hfd
              rw [this, hinv.listen]
            subst hiL
            exact hacc (le_refl _) hc
          have hs1 : Reachable L s1 := Reachable.step _ hs henv hstep
          refine ih s1 (i + 1) s3 o3 calls3 hs1 ?_ ?_ hrec
          · intro fd hfd hrdy
            have hact := hready fd (by omega) hrdy
            have hne : fd ≠ i := by omega
            rcases server_loop_body_cases hstep with ⟨_, _, h1, _⟩ | ⟨_, _, h1, _⟩ |
              ⟨_, _, h1, _⟩ | ⟨_, _, h1, _⟩
            · rw [h1, client_join_active_fds_any]
              split_ifs
              · by_cases e : fd = ({ os i with fd := i } : Ready).client_fd.toNat
                · rw [e, set_at_same]
                · rw [set_at_other _ _ e]; exact hact
              · exact hact
            · rw [h1]; exact hact
            · rw [h1, client_leave_small s (inv_active_small hinv henv.1)]
              show set_at s.active_fds i false fd = true
              rw [set_at_other _ _ hne]; exact hact
            · rw [h1]; exact hact
          · intro hL hc
            have hiL : i ≠ s.listen_fd := by rw [hinv.listen]; omega
            have hold := hacc (by omega) hc
            rcases server_loop_body_cases hstep with ⟨hfd, _, _, _⟩ | ⟨hfd, _, _, _⟩ |
              ⟨_, _, h1, _⟩ | ⟨_, _, h1, _⟩
            · exact absurd hfd hiL
            · exact absurd hfd hiL
            · rw [h1, client_leave_small s (inv_active_small hinv henv.1)]
              refine ⟨?_, hold.2.1, hold.2.2⟩
              show set_at s.active_fds i false _ = false
              by_cases e : (os L).client_fd.toNat = i
              · rw [e, set_at_same]
              · rw [set_at_other _ _ e]; exact hold.1
            · rw [h1]; exact hold
    · simp only [hi, if_false, Option.some.injEq, Prod.mk.injEq] at h
      obtain ⟨e1, _, _⟩ := h
      subst e1
      exact hs

theorem server_loop_pass_reachable {L : Nat} {s s2 : t_state} {out : List Sent}
    {calls : List (Nat × Call)} (ready : Nat → Bool) (os : Nat → Ready) (fuel : Nat)
    (hs : Reachable L s) (hready : ∀ fd, ready fd = true → s.active_fds fd = true)
    (hacc : 0 ≤ (os L).client_fd →
      s.active_fds (os L).client_fd.toNat = false ∧ (os L).client_fd.toNat < FD_SETSIZE ∧
        s.next_client_id < INT_MAX)
    (hrecv : ∀ fd, (os fd).recv_ret ≤ 1000)
    (hscan : server_loop_scan fuel s 0 ready os = some (s2, out, calls)) :
    Reachable L s2 :=
  server_loop_scan_reachable ready os hrecv fuel s 0 s2 out calls hs
    (fun fd _ => hready fd) (fun _ => hacc) hscan


/-! ## Runs that pass `FD_SETSIZE` -/

theorem server_loop_turns_total (rs : List Ready) :
    ∀ s, ∃ res, server_loop_turns s rs = some res := by
  induction rs with
  | nil => intro s; exact ⟨_, rfl⟩
  | cons r rs ih =>
    intro s
    obtain ⟨⟨s1, o1⟩, h1⟩ := server_loop_body_total s r
    obtain ⟨⟨s2, o2⟩, h2⟩ := ih s1
    exact ⟨(s2, o1 ++ o2), by simp [server_loop_turns, h1, h2]⟩

theorem server_loop_turns_accept {α : Type} (f : t_state → α) {s : t_state} {L : Nat}
    (hl : s.listen_fd = L) (h : Nat) (rs : List Ready) :
    (server_loop_turns s (accept_report L (h : Int) :: rs)).map (fun p => f p.1) =
      (server_loop_turns (client_join s h).1 rs).map (fun p => f p.1) := by
  have hstep : server_loop_body s (accept_report L (h : Int)) = some (client_join s h) := by
    have := server_loop_body_accept (s := s) (r := accept_report L (h : Int))
      (by rw [hl]; rfl) (by simp [accept_report])
    simpa [accept_report] using this
  obtain ⟨⟨s2, o2⟩, h2⟩ := server_loop_turns_total rs (client_join s h).1
  have h3 : server_loop_turns s (accept_report L (h : Int) :: rs) =
      some (s2, (client_join s h).2 ++ o2) := by
    simp [server_loop_turns, hstep, h2]
  rw [h3, h2]
  rfl

theorem accept_reports_succ (L a n : Nat) :
    accept_reports L a (n + 1) = accept_report L (a : Int) :: accept_reports L (a + 1) n := rfl

theorem count_joins_accept_reports (L : Nat) (n : Nat) :
    ∀ a, count_joins L (accept_reports L a n) = n := by
  induction n with
  | zero => intro a; rfl
  | succ n ih =>
    intro a
    have h := ih (a + 1)
    rw [accept_reports_succ]
    unfold count_joins at h ⊢
    rw [List.filter_cons_of_pos (by simp [accept_report]), List.length_cons, h]

theorem server_loop_turns_accept_reports {α : Type} (f : t_state → α) {L : Nat} (n : Nat) :
    ∀ (a : Nat) (s : t_state), s.listen_fd = L → 0 ≤ s.next_client_id →
      s.next_client_id + n < INT_MAX → a + n ≤ FD_SETSIZE →
      ∃ s1, s1.listen_fd = L ∧ s1.next_client_id = s.next_client_id + n ∧
        ∀ rs, (server_loop_turns s (accept_reports L a n ++ rs)).map (fun p => f p.1) =
          (server_loop_turns s1 rs).map (fun p => f p.1) := by
  induction n with
  | zero =>
    intro a s hl _ _ _
    exact ⟨s, hl, by simp, fun rs => rfl⟩
  | succ n ih =>
    intro a s hl h0 hc ha
    have hh : a < FD_SETSIZE := by omega
    have hc1 : s.next_client_id < INT_MAX := by
      have : (0 : Int) ≤ ((n + 1 : Nat) : Int) := Int.ofNat_nonneg _
      omega
    have hnext := client_join_next_client_id s hh h0 hc1
    obtain ⟨s1, hl1, hn1, hrs⟩ := ih (a + 1) (client_join s a).1
      (by rw [client_join_listen_fd]; exact hl) (by rw [hnext]; omega)
      (by rw [hnext]; push_cast at hc ⊢; omega) (by omega)
    refine ⟨s1, hl1, by rw [hn1, hnext]; push_cast; ring, ?_⟩
    intro rs
    rw [accept_reports_succ, List.cons_append, server_loop_turns_accept f hl]
    exact hrs rs

theorem client_join_over (s : t_state) (h b : Nat) (hb : h = FD_SETSIZE + b) (hb32 : b < 32) :
    (client_join s h).1.next_client_id = int_set_bit (to_int (s.next_client_id + 1)) b ∧
      (client_join s h).1.fd_to_id = set_at s.fd_to_id h s.next_client_id := by
  have h1 : ¬ h < FD_SETSIZE := by omega
  have h2 : h < FD_SETSIZE + 32 := by omega
  have h3 : h - FD_SETSIZE = b := by omega
  unfold client_join FD_SET
  simp only [h1, h2, h3, if_true, if_false]
  constructor <;> split_ifs <;> rfl

/-- The run of the first 1025 clients: from the state set up by `main` with
listening handle 3, the clients connect one after the other on the handles 4,
5, ..., 1028 and none disconnects.  The 1024th join (handle 1027) stores
identity 1023 and its `FD_SET(1027)` sets bit 3 of the counter, which becomes
1032: the 1025th join (handle 1028) stores identity 1032. -/
theorem accept_reports_past_fd_setsize :
    (server_loop_turns (main_state 3) (accept_reports 3 4 1025)).map
      (fun p => (p.1.fd_to_id 1027, p.1.fd_to_id 1028)) = some (1023, 1032) := by
  have hsplit : accept_reports 3 4 1025 = accept_reports 3 4 1020 ++
      [accept_report 3 (1024 : Nat), accept_report 3 (1025 : Nat), accept_report 3 (1026 : Nat),
        accept_report 3 (1027 : Nat), accept_report 3 (1028 : Nat)] := by
    have h5 : [accept_report 3 (1024 : Nat), accept_report 3 (1025 : Nat),
        accept_report 3 (1026 : Nat), accept_report 3 (1027 : Nat),
        accept_report 3 (1028 : Nat)] = accept_reports 3 (4 + 1020) 5 := rfl
    rw [h5]
    unfold accept_reports
    rw [← List.map_append, List.range'_append_1]
  have hmain : (main_state 3).listen_fd = 3 ∧ (main_state 3).next_client_id = 0 := by
    rw [main_state_small (by decide)]
    exact ⟨rfl, rfl⟩
  obtain ⟨s0, hl0, hc0, hrs⟩ := server_loop_turns_accept_reports
    (fun t => (t.fd_to_id 1027, t.fd_to_id 1028)) 1020 4 (main_state 3) hmain.1
    (by rw [hmain.2]) (by rw [hmain.2]; decide) (by decide)
  rw [hmain.2] at hc0
  have hc0 : s0.next_client_id = 1020 := by rw [hc0]; rfl
  obtain ⟨c1, _⟩ := client_join_over s0 1024 0 rfl (by decide)
  obtain ⟨c2, _⟩ := client_join_over (client_join s0 1024).1 1025 1 rfl (by decide)
  obtain ⟨c3, _⟩ := client_join_over (client_join (client_join s0 1024).1 1025).1 1026 2 rfl
    (by decide)
  obtain ⟨c4, i4⟩ := client_join_over
    (client_join (client_join (client_join s0 1024).1 1025).1 1026).1 1027 3 rfl (by decide)
  obtain ⟨_, i5⟩ := client_join_over
    (client_join (client_join (client_join (client_join s0 1024).1 1025).1 1026).1 1027).1
    1028 4 rfl (by decide)
  rw [hc0] at c1
  have c1 : (client_join s0 1024).1.next_client_id = 1021 := by rw [c1]; decide
  rw [c1] at c2
  have c2 : (client_join (client_join s0 1024).1 1025).1.next_client_id = 1022 := by
    rw [c2]; decide
  rw [c2] at c3
  have c3 : (client_join (client_join (client_join s0 1024).1 1025).1 1026).1.next_client_id =
      1023 := by rw [c3]; decide
  rw [c3] at c4 i4
  have c4 : (client_join (client_join (client_join (client_join s0 1024).1 1025).1 1026).1
      1027).1.next_client_id = 1032 := by rw [c4]; decide
  rw [c4] at i5
  rw [hsplit, hrs,
    server_loop_turns_accept (fun t => (t.fd_to_id 1027, t.fd_to_id 1028)) hl0,
    server_loop_turns_accept (fun t => (t.fd_to_id 1027, t.fd_to_id 1028))
      (by rw [client_join_listen_fd]; exact hl0),
    server_loop_turns_accept (fun t => (t.fd_to_id 1027, t.fd_to_id 1028))
      (by rw [client_join_listen_fd, client_join_listen_fd]; exact hl0),
    server_loop_turns_accept (fun t => (t.fd_to_id 1027, t.fd_to_id 1028)) (by
      rw [client_join_listen_fd, client_join_listen_fd, client_join_listen_fd]; exact hl0),
    server_loop_turns_accept (fun t => (t.fd_to_id 1027, t.fd_to_id 1028)) (by
      rw [client_join_listen_fd, client_join_listen_fd, client_join_listen_fd,
        client_join_listen_fd]; exact hl0)]
  show some (_, _) = some (_, _)
  rw [i5, set_at_other _ _ (by decide), set_at_same, i4, set_at_same]

/-! ## Turns beyond the limits -/

theorem server_loop_body_buffers_nl_free {s s1 : t_state} {r : Ready} {out : List Sent}
    (hs : ∀ fd, NL ∉ buf_bytes (s.fd_to_buffer fd))
    (hstep : server_loop_body s r = some (s1, out)) :
    ∀ fd, NL ∉ buf_bytes (s1.fd_to_buffer fd) := by
  intro fd
  rcases server_loop_body_cases hstep with ⟨_, _, h1, _⟩ | ⟨_, _, h1, _⟩ | ⟨_, _, h1, _⟩ |
    ⟨_, _, h1, _⟩
  · rw [h1, client_join_fd_to_buffer]
    by_cases e : fd = r.client_fd.toNat
    · rw [e, set_at_same]; simp [buf_bytes]
    · rw [set_at_other _ _ e]; exact hs fd
  · rw [h1]; exact hs fd
  · rw [h1, client_leave_state, FD_CLR_fd_to_buffer]; exact hs fd
  · rw [h1]
    show NL ∉ buf_bytes (set_at s.fd_to_buffer r.fd _ fd)
    by_cases e : fd = r.fd
    · rw [e, set_at_same, buf_bytes_some]; exact spec_rest_nl_free _
    · rw [set_at_other _ _ e]; exact hs fd

/-- Whatever the reports are, also when handles reach `FD_SETSIZE` or the
counter wraps: over any turns of the loop that return, the listening handle
stays recorded and in the active set, every handle of the active set stays at
most `highest_fd`, `highest_fd` does not decrease and no stored buffer gets a
'\n'. -/
theorem server_loop_turns_keep (L : Nat) (rs : List Ready) :
    ∀ (s s1 : t_state) (out : List Sent), s.listen_fd = L → s.active_fds L = true →
      (∀ fd, s.active_fds fd = true → fd ≤ s.highest_fd) →
      (∀ fd, NL ∉ buf_bytes (s.fd_to_buffer fd)) →
      server_loop_turns s rs = some (s1, out) →
      s1.listen_fd = L ∧ s1.active_fds L = true ∧
        (∀ fd, s1.active_fds fd = true → fd ≤ s1.highest_fd) ∧
        (∀ fd, NL ∉ buf_bytes (s1.fd_to_buffer fd)) ∧ s.highest_fd ≤ s1.highest_fd := by
  induction rs with
  | nil =>
    intro s s1 out hl ha hb hn h
    simp only [server_loop_turns, Option.some.injEq, Prod.mk.injEq] at h
    rw [← h.1]
    exact ⟨hl, ha, hb, hn, le_refl _⟩
  | cons r rs ih =>
    intro s s1 out hl ha hb hn h
    obtain ⟨⟨t, o1⟩, hstep⟩ := server_loop_body_total s r
    obtain ⟨⟨t2, o2⟩, hrest⟩ := server_loop_turns_total rs t
    simp only [server_loop_turns, hstep, hrest, Option.some.injEq, Prod.mk.injEq] at h
    obtain ⟨hl1, ha1, hb1⟩ := server_loop_body_listen hl ha hb hstep
    have hn1 := server_loop_body_buffers_nl_free hn hstep
    have hmono := (server_loop_body_highest_fd hstep).1
    obtain ⟨g1, g2, g3, g4, g5⟩ := ih t t2 o2 hl1 ha1 hb1 hn1 hrest
    rw [← h.1]
    exact ⟨g1, g2, g3, g4, le_trans hmono g5⟩

theorem server_loop_turns_keep_witness :
    ∃ s1 out, (main_state 3).listen_fd = 3 ∧ (main_state 3).active_fds 3 = true ∧
      (∀ fd, (main_state 3).active_fds fd = true → fd ≤ (main_state 3).highest_fd) ∧
      (∀ fd, NL ∉ buf_bytes ((main_state 3).fd_to_buffer fd)) ∧
      server_loop_turns (main_state 3)
        [accept_report 3 4, accept_report 3 1024, recv_report 1024 (bytes "a\nb"),
          close_report 1024 0] = some (s1, out) ∧
      (s1.listen_fd = 3 ∧ s1.active_fds 3 = true ∧
        (∀ fd, s1.active_fds fd = true → fd ≤ s1.highest_fd) ∧
        (∀ fd, NL ∉ buf_bytes (s1.fd_to_buffer fd)) ∧
        (main_state 3).highest_fd ≤ s1.highest_fd) := by
  have hinv := inv_main_state 3 (by decide)
  have hn : ∀ fd, NL ∉ buf_bytes ((main_state 3).fd_to_buffer fd) := by
    intro fd
    rw [main_state_small (by decide)]
    simp [buf_bytes]
  obtain ⟨⟨s1, out⟩, h⟩ := server_loop_turns_total
    [accept_report 3 4, accept_report 3 1024, recv_report 1024 (bytes "a\nb"),
      close_report 1024 0] (main_state 3)
  exact ⟨s1, out, hinv.listen, hinv.listen_active, hinv.bound, hn, h,
    server_loop_turns_keep 3 _ _ _ _ hinv.listen hinv.listen_active hinv.bound hn h⟩

/-! ## Handles at and above `FD_SETSIZE`, and `SIGPIPE` -/

set_option maxRecDepth 100000

/-- C2: the 1025th join does not store identity 1024.  From the state set up
by `main` with listening handle 3, 1025 clients connect one after the other
and none disconnects: `accept` returns 4, 5, ..., 1028.  The 1024th join
(handle 1027) stores identity 1023, but the 1025th (handle 1028) stores 1032:
`FD_SET(1027)` has set bit 3 of `next_client_id`, which follows the set in
`t_state`.  In the short run where `accept` returns 4, 1024 and 5, the three
joins store 0, 1 and 3.  Also, the join that finds the counter at `INT_MAX`
leaves it at -2147483648, the identity of the join after it. -/
theorem nth_join_identity_beyond_fd_set :
    (count_joins 3 (accept_reports 3 4 1025) = 1025 ∧
      (server_loop_turns (main_state 3) (accept_reports 3 4 1025)).map
        (fun p => (p.1.fd_to_id 1027, p.1.fd_to_id 1028)) = some (1023, 1032)) ∧
    (count_joins 3 [accept_report 3 4, accept_report 3 1024, accept_report 3 5] = 3 ∧
      (server_loop_turns (main_state 3)
          [accept_report 3 4, accept_report 3 1024, accept_report 3 5]).map
        (fun p => (p.1.fd_to_id 4, p.1.fd_to_id 1024, p.1.fd_to_id 5)) = some (0, 1, 3)) ∧
    (server_loop_turns { main_state 3 with next_client_id := INT_MAX }
        [accept_report 3 4, accept_report 3 5]).map
      (fun p => (p.1.fd_to_id 4, p.1.fd_to_id 5)) = some (2147483647, -2147483648) :=
  ⟨⟨count_joins_accept_reports 3 1025 4, accept_reports_past_fd_setsize⟩, by decide,
    by decide⟩

/-- C3: `broadcast` misses a joined client and sends to a handle that never
joined.  After joins on 4, 1024 and 5 the counter is 4, `FD_ISSET(1024)` reads
its bit 0 and is false, and `broadcast(4, message)` sends to 5 only: the
client on 1024 gets nothing.  After joins on 4, 5 and 1025 the counter is 3 and
`broadcast(4, message)` also sends to handle 1024, which was never
accepted. -/
theorem broadcast_beyond_fd_set :
    (clients_around_1024.highest_fd = 1024 ∧ clients_around_1024.next_client_id = 4 ∧
      FD_ISSET 1024 clients_around_1024 = false ∧
      broadcast clients_around_1024 4 (bytes "hello\n") = [(5, bytes "hello\n")]) ∧
    (client_on_1025.next_client_id = 3 ∧ FD_ISSET 1024 client_on_1025 = true ∧
      broadcast client_on_1025 4 (bytes "hello\n") =
        [(5, bytes "hello\n"), (1024, bytes "hello\n"), (1025, bytes "hello\n")]) := by
  decide

/-- C5: the arrival notice does not reach the client on handle 1024.  With
clients on 4 and 1024 (counter 3), the join of handle 5 calls `send` once, for
handle 4, with "server: client 3 just arrived\n"; the client on 1024, which
joined before and has not left, gets no notice. -/
theorem arrival_notice_beyond_fd_set :
    client_on_1024.next_client_id = 3 ∧ client_on_1024.fd_to_id 1024 = 1 ∧
    server_loop_call client_on_1024 (accept_report 3 5) = Call.join 5 ∧
    (server_loop_body client_on_1024 (accept_report 3 5)).map Prod.snd =
      some [(4, bytes "server: client 3 just arrived\n")] := by
  decide

/-- C6: the departure notice does not reach the client on handle 1024.  With
clients on 4, 1024 and 5 (identities 0, 1 and 3), the disconnect of handle 5
calls `send` once, for handle 4, with "server: client 3 just left\n"; the
client on 1024, still connected, gets no notice. -/
theorem departure_notice_beyond_fd_set :
    (clients_around_1024.fd_to_id 4, clients_around_1024.fd_to_id 1024,
      clients_around_1024.fd_to_id 5) = (0, 1, 3) ∧
    server_loop_call clients_around_1024 (close_report 5 0) = Call.leave 5 ∧
    (server_loop_body clients_around_1024 (close_report 5 0)).map Prod.snd =
      some [(4, bytes "server: client 3 just left\n")] := by
  decide

/-- C7: the counter decreases and an identity is given twice.  With clients
on 4, 5 and 1025 (identities 0, 1 and 2, counter 3) the disconnect of handle
1025 runs `FD_CLR(1025)`, which clears bit 1 of `next_client_id`: the counter
drops from 3 to 1.  The next join, on handle 6, stores identity 1, the
identity of the client on handle 5, and both are in the active set.  Also, a
join at counter `INT_MAX` leaves the counter negative. -/
theorem identity_reused_beyond_fd_set :
    (client_on_1025.next_client_id = 3 ∧
      (server_loop_turns client_on_1025 [close_report 1025 0]).map
        (fun p => p.1.next_client_id) = some 1 ∧
      (server_loop_turns client_on_1025 [close_report 1025 0, accept_report 3 6]).map
        (fun p => (p.1.active_fds 5, p.1.active_fds 6, p.1.fd_to_id 5, p.1.fd_to_id 6)) =
        some (true, true, 1, 1)) ∧
    (client_join { two_clients with next_client_id := INT_MAX } 6).1.next_client_id =
      -2147483648 := by
  decide

/-- C8: a disconnect changes the counter.  With clients on 4, 5 and 1025
(counter 3), a `recv` result of 0 or of -1 on handle 1025 runs
`client_leave(1025)`, and afterwards the counter is 1, not 3. -/
theorem disconnect_beyond_fd_set :
    client_on_1025.next_client_id = 3 ∧
    server_loop_call client_on_1025 (close_report 1025 0) = Call.leave 1025 ∧
    server_loop_call client_on_1025 (close_report 1025 (-1)) = Call.leave 1025 ∧
    (server_loop_body client_on_1025 (close_report 1025 0)).map
      (fun p => p.1.next_client_id) = some 1 ∧
    (server_loop_body client_on_1025 (close_report 1025 (-1))).map
      (fun p => p.1.next_client_id) = some 1 := by
  decide

/-- C11: an empty line is not relayed to every other client.  With clients on
4, 1024 and 5, the empty line "\n" from handle 5 (identity 3) is sent to handle
4 only, and the client on 1024 gets nothing.  With clients on 4, 5 and 6, when
the third call of `send` of the turn raises `SIGPIPE` (the connection on 5 is
closed by its peer), the process ends after "client 0: " was sent to 5 and 6:
the client on 6 gets the prefix and never the byte '\n'. -/
theorem empty_line_not_relayed :
    (server_loop_body clients_around_1024 (recv_report 5 (bytes "\n"))).map Prod.snd =
      some [(4, bytes "client 3: "), (4, bytes "\n")] ∧
    (server_loop_body three_clients (recv_report 4 (bytes "\n"))).map Prod.snd =
      some [(5, bytes "client 0: "), (6, bytes "client 0: "), (5, bytes "\n"),
        (6, bytes "\n")] ∧
    (server_loop_turn (fun k => decide (k = 2)) three_clients
        (recv_report 4 (bytes "\n"))).map (fun p => (p.1.isSome, p.2)) =
      some (false, [(5, bytes "client 0: "), (6, bytes "client 0: ")]) := by
  decide

end MiniServ
